import Mathlib

/-!
Verification development for the argko.gr slang-dictionary repository.

Part 1 embeds the vote API handler (`src/pages/api/vote.ts`, the `POST`
route) over a relational state: the `definitions` table rows carry the
denormalized `upvotes`/`downvotes` counters, the `definition_votes` table
is the per-user vote ledger (unique index on `(definition_id, user_id)`,
primary-key identity column `id`, foreign key `definition_id → definitions.id`).

Part 2 embeds the seeding pipeline (`src/shared/db/seed.ts`):
`transliterate`, `extractWords`, the phase-1 transliteration dedup map,
the phase-2 term-row insertion, and the phase-3 cross-reference extraction.
-/

/-- The `vote_type` enum of the schema: `up` or `down`. -/
inductive Dir where
  | up
  | down
deriving DecidableEq, Repr

/-- The string form of a stored vote direction, as the drizzle row object
exposes it (`existingVote.voteType` is the string `"up"` or `"down"`). -/
def dirToString : Dir → String
  | Dir.up => "up"
  | Dir.down => "down"

/-- A row of the `definition_votes` ledger table. -/
structure VoteRow where
  id : Nat
  definitionId : Nat
  userId : String
  voteType : Dir
deriving DecidableEq, Repr

/-- A row of the `definitions` table (the fields the vote handler touches:
the primary key and the two denormalized counters, stored as SQL integers). -/
structure DefRow where
  id : Nat
  upvotes : Int
  downvotes : Int
deriving DecidableEq, Repr

/-- The database state seen by the vote handler: the `definitions` table,
the `definition_votes` table, and the next value of the ledger's identity
column (used for freshly inserted vote rows). -/
structure DB where
  definitions : List DefRow
  definitionVotes : List VoteRow
  nextVoteId : Nat
deriving DecidableEq, Repr

/-- The predicate of the handler's `findFirst` query:
`and(eq(definitionVotes.definitionId, definitionId), eq(definitionVotes.userId, session.user.id))`. -/
def votePred (definitionId : Nat) (userId : String) : VoteRow → Bool :=
  fun v => v.definitionId == definitionId && v.userId == userId

/-- `delete(definitionVotes).where(eq(definitionVotes.id, existingVote.id))`. -/
def deleteVoteById (votes : List VoteRow) (vid : Nat) : List VoteRow :=
  votes.filter (fun v => v.id != vid)

/-- `update(definitionVotes).set({ voteType }).where(eq(definitionVotes.id, existingVote.id))`. -/
def setVoteTypeById (votes : List VoteRow) (vid : Nat) (d : Dir) : List VoteRow :=
  votes.map (fun v => if v.id == vid then { v with voteType := d } else v)

/-- `update(definitions).set(...).where(eq(definitions.id, definitionId))`:
applies the SET clause `f` to every row whose `id` equals `definitionId`. -/
def updateWhereId (defs : List DefRow) (definitionId : Nat) (f : DefRow → DefRow) : List DefRow :=
  defs.map (fun r => if r.id == definitionId then f r else r)

/-- SET clause `{ upvotes: upvotes + 1 }`. -/
def incUp (r : DefRow) : DefRow := { r with upvotes := r.upvotes + 1 }

/-- SET clause `{ downvotes: downvotes + 1 }`. -/
def incDown (r : DefRow) : DefRow := { r with downvotes := r.downvotes + 1 }

/-- SET clause `{ upvotes: upvotes - 1 }`. -/
def decUp (r : DefRow) : DefRow := { r with upvotes := r.upvotes - 1 }

/-- SET clause `{ downvotes: downvotes - 1 }`. -/
def decDown (r : DefRow) : DefRow := { r with downvotes := r.downvotes - 1 }

/-- SET clause `{ downvotes: downvotes - 1, upvotes: upvotes + 1 }`
(the single update of the down→up switch). -/
def switchToUp (r : DefRow) : DefRow :=
  { r with downvotes := r.downvotes - 1, upvotes := r.upvotes + 1 }

/-- SET clause `{ upvotes: upvotes - 1, downvotes: downvotes + 1 }`
(the single update of the up→down switch). -/
def switchToDown (r : DefRow) : DefRow :=
  { r with upvotes := r.upvotes - 1, downvotes := r.downvotes + 1 }

/-- The body of `db.transaction(async (tx) => ...)` in the vote handler.
`none` models the transaction throwing (a storage-constraint violation),
in which case every write inside it is rolled back.  The insert of Case C
is subject to the store's foreign-key constraint
(`definition_id → definitions.id`) and the unique index on
`(definition_id, user_id)`; violating either aborts the transaction. -/
def voteTransaction (db : DB) (userId : String) (definitionId : Nat)
    (voteType : String) (existingVote : Option VoteRow) : Option DB :=
  if voteType == "remove" then
    -- Case A: removing a vote (toggling off)
    match existingVote with
    | some ev =>
      some { db with
        definitionVotes := deleteVoteById db.definitionVotes ev.id,
        definitions :=
          if ev.voteType = Dir.up then updateWhereId db.definitions definitionId decUp
          else updateWhereId db.definitions definitionId decDown }
    | none => some db
  else
    match existingVote with
    | some ev =>
      -- Case B: changing vote (up -> down OR down -> up)
      if dirToString ev.voteType != voteType then
        some { db with
          definitionVotes :=
            setVoteTypeById db.definitionVotes ev.id
              (if voteType == "up" then Dir.up else Dir.down),
          definitions :=
            if voteType == "up" then updateWhereId db.definitions definitionId switchToUp
            else updateWhereId db.definitions definitionId switchToDown }
      else
        -- same direction again: falls through Case B and Case C, no write
        some db
    | none =>
      -- Case C: new vote (no existing vote); the insert must satisfy the
      -- foreign key on definitionId and the (definitionId, userId) unique index
      if db.definitions.any (fun r => r.id == definitionId)
          && !(db.definitionVotes.any (votePred definitionId userId)) then
        some { db with
          definitionVotes :=
            db.definitionVotes ++
              [⟨db.nextVoteId, definitionId, userId,
                if voteType == "up" then Dir.up else Dir.down⟩],
          definitions :=
            if voteType == "up" then updateWhereId db.definitions definitionId incUp
            else updateWhereId db.definitions definitionId incDown,
          nextVoteId := db.nextVoteId + 1 }
      else none

/-- Responses of the handler: 401 Unauthorized, 400 Invalid input,
200 success, 500 Internal Server Error. -/
inductive VoteResponse where
  | unauthorized
  | invalidInput
  | success
  | serverError
deriving DecidableEq, Repr

/-- The `POST` route of `/api/vote`.  `session` is the authenticated user's
id (or `none` when unauthenticated); `definitionId` is `none` when the field
is absent from the request body (and the JavaScript falsiness test `!definitionId`
also rejects the value `0`).  The existing vote is read *before* the
transaction is opened, exactly as in the source. -/
def votePOST (db : DB) (session : Option String) (definitionId : Option Nat)
    (voteType : String) : VoteResponse × DB :=
  match session with
  | none => (VoteResponse.unauthorized, db)
  | some userId =>
    match definitionId with
    | none => (VoteResponse.invalidInput, db)
    | some defId =>
      if defId == 0 || !((["up", "down", "remove"] : List String).contains voteType) then
        (VoteResponse.invalidInput, db)
      else
        -- 1. Check existing vote (read outside the transaction, as in the source)
        match voteTransaction db userId defId voteType
            (db.definitionVotes.find? (votePred defId userId)) with
        | some db1 => (VoteResponse.success, db1)
        | none => (VoteResponse.serverError, db)

-- sanity checks (concrete evaluations of the embedding)
example :
    votePOST ⟨[⟨1, 0, 0⟩], [], 0⟩ (some "alice") (some 1) "up"
      = (VoteResponse.success, ⟨[⟨1, 1, 0⟩], [⟨0, 1, "alice", Dir.up⟩], 1⟩) := by
  decide

example :
    votePOST ⟨[⟨1, 1, 0⟩], [⟨0, 1, "alice", Dir.up⟩], 1⟩ (some "alice") (some 1) "down"
      = (VoteResponse.success, ⟨[⟨1, 0, 1⟩], [⟨0, 1, "alice", Dir.down⟩], 1⟩) := by
  decide

example :
    votePOST ⟨[⟨1, 1, 0⟩], [⟨0, 1, "alice", Dir.up⟩], 1⟩ (some "alice") (some 1) "remove"
      = (VoteResponse.success, ⟨[⟨1, 0, 0⟩], [], 1⟩) := by
  decide

example :
    votePOST ⟨[], [], 0⟩ (some "alice") (some 1) "up"
      = (VoteResponse.serverError, ⟨[], [], 0⟩) := by
  decide

example :
    votePOST ⟨[], [], 0⟩ (some "alice") (some 1) "remove"
      = (VoteResponse.success, ⟨[], [], 0⟩) := by
  decide

example :
    votePOST ⟨[⟨1, 0, 0⟩], [], 0⟩ none (some 1) "up"
      = (VoteResponse.unauthorized, ⟨[⟨1, 0, 0⟩], [], 0⟩) := by
  decide

/-! ### Counter–ledger invariant -/

/-- Number of rows in the vote ledger for a given definition id and direction. -/
def ledgerCount (votes : List VoteRow) (definitionId : Nat) (d : Dir) : Nat :=
  votes.countP (fun v => v.definitionId == definitionId && v.voteType == d)

/-- Counter–ledger agreement: every `definitions` row's denormalized counters
equal the corresponding row counts in the vote ledger. -/
def countersAgree (db : DB) : Prop :=
  ∀ r ∈ db.definitions,
    r.upvotes = (ledgerCount db.definitionVotes r.id Dir.up : Int) ∧
    r.downvotes = (ledgerCount db.definitionVotes r.id Dir.down : Int)

/-- At most one ledger row per (definition, voter) pair — the invariant
enforced by the unique index `definition_votes_unique_idx`. -/
def oneVotePerVoter (db : DB) : Prop :=
  db.definitionVotes.Pairwise
    (fun a b => ¬(a.definitionId = b.definitionId ∧ a.userId = b.userId))

/-- Primary-key integrity of the ledger's generated identity column:
ids are pairwise distinct and below the generator's next value. -/
def freshVoteIds (db : DB) : Prop :=
  (db.definitionVotes.map VoteRow.id).Nodup ∧
  ∀ v ∈ db.definitionVotes, v.id < db.nextVoteId

/-- Well-formed database state: counter–ledger agreement, the single-vote
uniqueness constraint, and identity-column integrity. -/
def WFdb (db : DB) : Prop := countersAgree db ∧ oneVotePerVoter db ∧ freshVoteIds db

/-- Count of the actor's ledger rows for a target. -/
def actorVoteCount (db : DB) (definitionId : Nat) (userId : String) : Nat :=
  db.definitionVotes.countP (votePred definitionId userId)

instance decCountersAgree (db : DB) : Decidable (countersAgree db) := by
  unfold countersAgree
  infer_instance

instance decOneVotePerVoter (db : DB) : Decidable (oneVotePerVoter db) := by
  unfold oneVotePerVoter
  infer_instance

instance decFreshVoteIds (db : DB) : Decidable (freshVoteIds db) := by
  unfold freshVoteIds
  infer_instance

instance decWFdb (db : DB) : Decidable (WFdb db) := by
  unfold WFdb
  infer_instance

theorem votePred_iff {definitionId : Nat} {userId : String} {v : VoteRow} :
    votePred definitionId userId v = true ↔
      v.definitionId = definitionId ∧ v.userId = userId := by
  simp [votePred]

/-! ### Counting lemmas for the three ledger mutations -/

theorem countP_deleteVoteById (votes : List VoteRow) (v : VoteRow) (p : VoteRow → Bool)
    (hnd : (votes.map VoteRow.id).Nodup) (hv : v ∈ votes) :
    votes.countP p = (deleteVoteById votes v.id).countP p + (if p v then 1 else 0) := by
  induction votes with
  | nil => cases hv
  | cons a t ih =>
    rw [List.map_cons, List.nodup_cons] at hnd
    obtain ⟨hna, hnt⟩ := hnd
    unfold deleteVoteById at *
    rcases List.mem_cons.mp hv with rfl | hvt
    · rw [List.filter_cons, if_neg (by simp)]
      have hkeep : t.filter (fun w => w.id != v.id) = t := by
        rw [List.filter_eq_self]
        intro w hw
        rw [bne_iff_ne]
        intro hEq
        exact hna (hEq ▸ List.mem_map_of_mem VoteRow.id hw)
      rw [hkeep, List.countP_cons]
    · have hne : (a.id != v.id) = true := by
        rw [bne_iff_ne]
        intro hEq
        exact hna (hEq ▸ List.mem_map_of_mem VoteRow.id hvt)
      rw [List.filter_cons, if_pos hne, List.countP_cons, List.countP_cons, ih hnt hvt]
      omega

theorem countP_setVoteTypeById (votes : List VoteRow) (v : VoteRow) (d : Dir)
    (p : VoteRow → Bool)
    (hnd : (votes.map VoteRow.id).Nodup) (hv : v ∈ votes) :
    (setVoteTypeById votes v.id d).countP p + (if p v then 1 else 0) =
      votes.countP p + (if p { v with voteType := d } then 1 else 0) := by
  induction votes with
  | nil => cases hv
  | cons a t ih =>
    rw [List.map_cons, List.nodup_cons] at hnd
    obtain ⟨hna, hnt⟩ := hnd
    unfold setVoteTypeById at *
    rcases List.mem_cons.mp hv with rfl | hvt
    · rw [List.map_cons, if_pos (beq_self_eq_true v.id)]
      have hkeep : t.map (fun w => if w.id == v.id then { w with voteType := d } else w) = t := by
        have hfix : ∀ w ∈ t,
            (if w.id == v.id then { w with voteType := d } else w) = w := by
          intro w hw
          have hne : ¬((w.id == v.id) = true) := by
            rw [beq_iff_eq]
            intro hEq
            exact hna (hEq ▸ List.mem_map_of_mem VoteRow.id hw)
          rw [if_neg hne]
        exact (List.map_congr_left hfix).trans (List.map_id t)
      rw [hkeep, List.countP_cons, List.countP_cons]
      omega
    · have hne : ¬((a.id == v.id) = true) := by
        rw [beq_iff_eq]
        intro hEq
        exact hna (hEq ▸ List.mem_map_of_mem VoteRow.id hvt)
      rw [List.map_cons, if_neg hne]
      rw [List.countP_cons, List.countP_cons]
      have hih := ih hnt hvt
      omega

theorem map_id_setVoteTypeById (votes : List VoteRow) (vid : Nat) (d : Dir) :
    (setVoteTypeById votes vid d).map VoteRow.id = votes.map VoteRow.id := by
  unfold setVoteTypeById
  rw [List.map_map]
  apply List.map_congr_left
  intro v _
  by_cases h : (v.id == vid) = true
  · simp only [Function.comp, h, if_pos]
  · simp only [Function.comp]
    rw [if_neg (by simp [h])]

theorem mem_setVoteTypeById {votes : List VoteRow} {vid : Nat} {d : Dir} {w : VoteRow}
    (hw : w ∈ setVoteTypeById votes vid d) :
    ∃ v ∈ votes, w = (if v.id == vid then { v with voteType := d } else v) := by
  obtain ⟨v, hv, rfl⟩ := List.mem_map.mp hw
  exact ⟨v, hv, rfl⟩

theorem actor_count_le_one (votes : List VoteRow)
    (hP : votes.Pairwise (fun a b => ¬(a.definitionId = b.definitionId ∧ a.userId = b.userId)))
    (definitionId : Nat) (userId : String) :
    votes.countP (votePred definitionId userId) ≤ 1 := by
  induction votes with
  | nil => simp
  | cons a t ih =>
    rw [List.pairwise_cons] at hP
    rw [List.countP_cons]
    by_cases hpa : votePred definitionId userId a = true
    · have hzero : t.countP (votePred definitionId userId) = 0 := by
        rw [List.countP_eq_zero]
        intro b hb hpb
        obtain ⟨ha1, ha2⟩ := votePred_iff.mp hpa
        obtain ⟨hb1, hb2⟩ := votePred_iff.mp hpb
        exact hP.1 b hb ⟨ha1.trans hb1.symm, ha2.trans hb2.symm⟩
      rw [hzero, if_pos hpa]
    · rw [if_neg (by simp [hpa])]
      have := ih hP.2
      omega

/-! ### Effect of each ledger mutation on ledger counts -/

theorem ledgerCount_deleteVoteById (votes : List VoteRow) (v : VoteRow)
    (hNd : (votes.map VoteRow.id).Nodup) (hvmem : v ∈ votes) (rid : Nat) (d : Dir) :
    ledgerCount votes rid d =
      ledgerCount (deleteVoteById votes v.id) rid d +
        (if v.definitionId = rid ∧ v.voteType = d then 1 else 0) := by
  have h := countP_deleteVoteById votes v
    (fun w => w.definitionId == rid && w.voteType == d) hNd hvmem
  unfold ledgerCount
  rw [h]
  congr 1
  by_cases hc : v.definitionId = rid ∧ v.voteType = d
  · rw [if_pos (by rw [Bool.and_eq_true, beq_iff_eq, beq_iff_eq]; exact hc), if_pos hc]
  · rw [if_neg (by rw [Bool.and_eq_true, beq_iff_eq, beq_iff_eq]; exact hc), if_neg hc]

theorem ledgerCount_setVoteTypeById (votes : List VoteRow) (v : VoteRow) (dNew : Dir)
    (hNd : (votes.map VoteRow.id).Nodup) (hvmem : v ∈ votes) (rid : Nat) (d : Dir) :
    ledgerCount (setVoteTypeById votes v.id dNew) rid d +
        (if v.definitionId = rid ∧ v.voteType = d then 1 else 0) =
      ledgerCount votes rid d +
        (if v.definitionId = rid ∧ dNew = d then 1 else 0) := by
  have h := countP_setVoteTypeById votes v dNew
    (fun w => w.definitionId == rid && w.voteType == d) hNd hvmem
  unfold ledgerCount
  simp only [Bool.and_eq_true, beq_iff_eq] at h
  exact h

theorem ledgerCount_append_one (votes : List VoteRow) (w : VoteRow) (rid : Nat) (d : Dir) :
    ledgerCount (votes ++ [w]) rid d =
      ledgerCount votes rid d +
        (if w.definitionId = rid ∧ w.voteType = d then 1 else 0) := by
  unfold ledgerCount
  rw [List.countP_append, List.countP_cons, List.countP_nil]
  congr 1
  by_cases hc : w.definitionId = rid ∧ w.voteType = d
  · rw [if_pos (by rw [Bool.and_eq_true, beq_iff_eq, beq_iff_eq]; exact hc), if_pos hc]
  · rw [if_neg (by rw [Bool.and_eq_true, beq_iff_eq, beq_iff_eq]; exact hc), if_neg hc]


/-! ### Invariant preservation, branch by branch -/

theorem countersAgree_generic (defs : List DefRow) (votes votes' : List VoteRow)
    (defId : Nat) (g : DefRow → DefRow) (du dd : Int)
    (hold : ∀ r ∈ defs, r.upvotes = (ledgerCount votes r.id Dir.up : Int) ∧
        r.downvotes = (ledgerCount votes r.id Dir.down : Int))
    (hgid : ∀ r : DefRow, (g r).id = r.id)
    (hgu : ∀ r : DefRow, (g r).upvotes = r.upvotes + du)
    (hgd : ∀ r : DefRow, (g r).downvotes = r.downvotes + dd)
    (hsame : ∀ rid, rid ≠ defId → ∀ d, ledgerCount votes' rid d = ledgerCount votes rid d)
    (hu : (ledgerCount votes' defId Dir.up : Int) = (ledgerCount votes defId Dir.up : Int) + du)
    (hd : (ledgerCount votes' defId Dir.down : Int) =
      (ledgerCount votes defId Dir.down : Int) + dd) :
    ∀ r' ∈ updateWhereId defs defId g,
      r'.upvotes = (ledgerCount votes' r'.id Dir.up : Int) ∧
      r'.downvotes = (ledgerCount votes' r'.id Dir.down : Int) := by
  intro r' hr'
  unfold updateWhereId at hr'
  obtain ⟨r, hr, rfl⟩ := List.mem_map.mp hr'
  obtain ⟨hru, hrd⟩ := hold r hr
  by_cases hid : (r.id == defId) = true
  · have hid' : r.id = defId := beq_iff_eq.mp hid
    rw [if_pos hid, hgid r, hgu r, hgd r, hid']
    rw [hid'] at hru hrd
    constructor
    · omega
    · omega
  · have hid' : r.id ≠ defId := fun h => hid (beq_iff_eq.mpr h)
    rw [if_neg hid, hsame r.id hid' Dir.up, hsame r.id hid' Dir.down]
    exact ⟨hru, hrd⟩

theorem WFdb_after_remove (db : DB) (userId : String) (defId : Nat) (v : VoteRow)
    (hWF : WFdb db)
    (hfind : db.definitionVotes.find? (votePred defId userId) = some v) :
    WFdb { db with
      definitionVotes := deleteVoteById db.definitionVotes v.id,
      definitions :=
        if v.voteType = Dir.up then updateWhereId db.definitions defId decUp
        else updateWhereId db.definitions defId decDown } := by
  obtain ⟨hC, hP, hNd, hLt⟩ := hWF
  have hvmem : v ∈ db.definitionVotes := List.mem_of_find?_eq_some hfind
  obtain ⟨hvd, _⟩ := votePred_iff.mp (List.find?_some hfind)
  have hdefs : (if v.voteType = Dir.up then updateWhereId db.definitions defId decUp
      else updateWhereId db.definitions defId decDown)
      = updateWhereId db.definitions defId
          (if v.voteType = Dir.up then decUp else decDown) := by
    by_cases hdir : v.voteType = Dir.up
    · rw [if_pos hdir, if_pos hdir]
    · rw [if_neg hdir, if_neg hdir]
  rw [hdefs]
  refine ⟨?_, ?_, ?_, ?_⟩
  · have H := countersAgree_generic db.definitions db.definitionVotes
      (deleteVoteById db.definitionVotes v.id) defId
      (if v.voteType = Dir.up then decUp else decDown)
      (if v.voteType = Dir.up then (-1 : Int) else 0)
      (if v.voteType = Dir.down then (-1 : Int) else 0)
      hC
      (by
        intro r
        by_cases hdir : v.voteType = Dir.up
        · rw [if_pos hdir]; rfl
        · rw [if_neg hdir]; rfl)
      (by
        intro r
        by_cases hdir : v.voteType = Dir.up
        · rw [if_pos hdir, if_pos hdir]
          show r.upvotes - 1 = r.upvotes + (-1)
          omega
        · rw [if_neg hdir, if_neg hdir]
          show r.upvotes = r.upvotes + 0
          omega)
      (by
        intro r
        cases hdir : v.voteType
        · rw [if_pos rfl, if_neg (by decide)]
          show r.downvotes = r.downvotes + 0
          omega
        · rw [if_neg (by decide), if_pos rfl]
          show r.downvotes - 1 = r.downvotes + (-1)
          omega)
      (by
        intro rid hrid d
        have h := ledgerCount_deleteVoteById db.definitionVotes v hNd hvmem rid d
        rw [if_neg (fun hc => hrid (hvd.symm.trans hc.1).symm)] at h
        omega)
      (by
        have h := ledgerCount_deleteVoteById db.definitionVotes v hNd hvmem defId Dir.up
        by_cases hdir : v.voteType = Dir.up
        · rw [if_pos ⟨hvd, hdir⟩] at h
          rw [if_pos hdir]
          omega
        · rw [if_neg (fun hc => hdir hc.2)] at h
          rw [if_neg hdir]
          omega)
      (by
        have h := ledgerCount_deleteVoteById db.definitionVotes v hNd hvmem defId Dir.down
        by_cases hdir : v.voteType = Dir.down
        · rw [if_pos ⟨hvd, hdir⟩] at h
          rw [if_pos hdir]
          omega
        · rw [if_neg (fun hc => hdir hc.2)] at h
          rw [if_neg hdir]
          omega)
    intro r' hr'
    exact H r' hr'
  · exact List.Pairwise.sublist (List.filter_sublist _) hP
  · exact List.Nodup.sublist ((List.filter_sublist _).map VoteRow.id) hNd
  · intro w hw
    exact hLt w (List.mem_of_mem_filter hw)

theorem oneVote_setVoteTypeById (votes : List VoteRow) (vid : Nat) (d : Dir)
    (hP : votes.Pairwise (fun a b => ¬(a.definitionId = b.definitionId ∧ a.userId = b.userId))) :
    (setVoteTypeById votes vid d).Pairwise
      (fun a b => ¬(a.definitionId = b.definitionId ∧ a.userId = b.userId)) := by
  have hfd : ∀ w : VoteRow,
      (if w.id == vid then { w with voteType := d } else w).definitionId = w.definitionId := by
    intro w
    by_cases h : (w.id == vid) = true
    · rw [if_pos h]
    · rw [if_neg h]
  have hfu : ∀ w : VoteRow,
      (if w.id == vid then { w with voteType := d } else w).userId = w.userId := by
    intro w
    by_cases h : (w.id == vid) = true
    · rw [if_pos h]
    · rw [if_neg h]
  unfold setVoteTypeById
  apply List.pairwise_map.mpr
  apply hP.imp
  intro a b hab hcon
  exact hab ⟨(hfd a).symm.trans (hcon.1.trans (hfd b)),
             (hfu a).symm.trans (hcon.2.trans (hfu b))⟩

theorem WFdb_after_switch (db : DB) (userId : String) (defId : Nat) (v : VoteRow)
    (voteType : String)
    (hWF : WFdb db)
    (hfind : db.definitionVotes.find? (votePred defId userId) = some v)
    (hvt : voteType = "up" ∨ voteType = "down")
    (hchange : dirToString v.voteType ≠ voteType) :
    WFdb { db with
      definitionVotes := setVoteTypeById db.definitionVotes v.id
        (if voteType == "up" then Dir.up else Dir.down),
      definitions :=
        if voteType == "up" then updateWhereId db.definitions defId switchToUp
        else updateWhereId db.definitions defId switchToDown } := by
  obtain ⟨hC, hP, hNd, hLt⟩ := hWF
  have hvmem : v ∈ db.definitionVotes := List.mem_of_find?_eq_some hfind
  obtain ⟨hvd, _⟩ := votePred_iff.mp (List.find?_some hfind)
  rcases hvt with rfl | rfl
  · -- new direction: up, so the stored direction was down
    have hdown : v.voteType = Dir.down := by
      cases hvt2 : v.voteType
      · exact absurd (by rw [hvt2]; rfl) hchange
      · rfl
    rw [if_pos (by rfl : (("up" : String) == "up") = true)]
    refine ⟨?_, ?_, ?_, ?_⟩
    · have H := countersAgree_generic db.definitions db.definitionVotes
        (setVoteTypeById db.definitionVotes v.id Dir.up) defId switchToUp 1 (-1)
        hC
        (fun r => rfl)
        (fun r => rfl)
        (by
          intro r
          show r.downvotes - 1 = r.downvotes + (-1)
          omega)
        (by
          intro rid hrid d
          have h := ledgerCount_setVoteTypeById db.definitionVotes v Dir.up hNd hvmem rid d
          rw [if_neg (fun hc => hrid (hvd.symm.trans hc.1).symm),
            if_neg (fun hc => hrid (hvd.symm.trans hc.1).symm)] at h
          omega)
        (by
          have h := ledgerCount_setVoteTypeById db.definitionVotes v Dir.up hNd hvmem defId Dir.up
          rw [if_neg (fun hc => by rw [hdown] at hc; cases hc.2), if_pos ⟨hvd, rfl⟩] at h
          omega)
        (by
          have h := ledgerCount_setVoteTypeById db.definitionVotes v Dir.up hNd hvmem defId Dir.down
          rw [if_pos ⟨hvd, hdown⟩, if_neg (fun hc => by cases hc.2)] at h
          omega)
      intro r' hr'
      exact H r' hr'
    · exact oneVote_setVoteTypeById db.definitionVotes v.id Dir.up hP
    · show ((setVoteTypeById db.definitionVotes v.id Dir.up).map VoteRow.id).Nodup
      rw [map_id_setVoteTypeById]
      exact hNd
    · intro w hw
      obtain ⟨u, hu, rfl⟩ := List.mem_map.mp hw
      have h := hLt u hu
      by_cases hc : (u.id == v.id) = true
      · rw [if_pos hc]
        exact h
      · rw [if_neg hc]
        exact h
  · -- new direction: down, so the stored direction was up
    have hup : v.voteType = Dir.up := by
      cases hvt2 : v.voteType
      · rfl
      · exact absurd (by rw [hvt2]; rfl) hchange
    rw [if_neg (by decide : ¬((("down" : String) == "up") = true))]
    refine ⟨?_, ?_, ?_, ?_⟩
    · have H := countersAgree_generic db.definitions db.definitionVotes
        (setVoteTypeById db.definitionVotes v.id Dir.down) defId switchToDown (-1) 1
        hC
        (fun r => rfl)
        (by
          intro r
          show r.upvotes - 1 = r.upvotes + (-1)
          omega)
        (fun r => rfl)
        (by
          intro rid hrid d
          have h := ledgerCount_setVoteTypeById db.definitionVotes v Dir.down hNd hvmem rid d
          rw [if_neg (fun hc => hrid (hvd.symm.trans hc.1).symm),
            if_neg (fun hc => hrid (hvd.symm.trans hc.1).symm)] at h
          omega)
        (by
          have h := ledgerCount_setVoteTypeById db.definitionVotes v Dir.down hNd hvmem defId Dir.up
          rw [if_pos ⟨hvd, hup⟩, if_neg (fun hc => by cases hc.2)] at h
          omega)
        (by
          have h := ledgerCount_setVoteTypeById db.definitionVotes v Dir.down hNd hvmem defId Dir.down
          rw [if_neg (fun hc => by rw [hup] at hc; cases hc.2), if_pos ⟨hvd, rfl⟩] at h
          omega)
      intro r' hr'
      exact H r' hr'
    · exact oneVote_setVoteTypeById db.definitionVotes v.id Dir.down hP
    · show ((setVoteTypeById db.definitionVotes v.id Dir.down).map VoteRow.id).Nodup
      rw [map_id_setVoteTypeById]
      exact hNd
    · intro w hw
      obtain ⟨u, hu, rfl⟩ := List.mem_map.mp hw
      have h := hLt u hu
      by_cases hc : (u.id == v.id) = true
      · rw [if_pos hc]
        exact h
      · rw [if_neg hc]
        exact h

theorem WFdb_after_insert (db : DB) (userId : String) (defId : Nat) (voteType : String)
    (hWF : WFdb db)
    (hfind : db.definitionVotes.find? (votePred defId userId) = none) :
    WFdb { db with
      definitionVotes := db.definitionVotes ++
        [⟨db.nextVoteId, defId, userId, if voteType == "up" then Dir.up else Dir.down⟩],
      definitions :=
        if voteType == "up" then updateWhereId db.definitions defId incUp
        else updateWhereId db.definitions defId incDown,
      nextVoteId := db.nextVoteId + 1 } := by
  obtain ⟨hC, hP, hNd, hLt⟩ := hWF
  have hnone : ∀ a ∈ db.definitionVotes,
      ¬(a.definitionId = defId ∧ a.userId = userId) := by
    intro a ha hc
    exact (List.find?_eq_none.mp hfind a ha) (votePred_iff.mpr hc)
  have hP' : ∀ (d : Dir),
      oneVotePerVoter { db with
        definitionVotes := db.definitionVotes ++ [⟨db.nextVoteId, defId, userId, d⟩],
        definitions := if voteType == "up" then updateWhereId db.definitions defId incUp
          else updateWhereId db.definitions defId incDown,
        nextVoteId := db.nextVoteId + 1 } := by
    intro d
    apply List.pairwise_append.mpr
    refine ⟨hP, List.pairwise_singleton _ _, ?_⟩
    intro a ha b hb
    rw [List.mem_singleton] at hb
    subst hb
    exact hnone a ha
  have hFresh : ∀ (d : Dir),
      ((db.definitionVotes ++ [(⟨db.nextVoteId, defId, userId, d⟩ : VoteRow)]).map VoteRow.id).Nodup ∧
      ∀ w ∈ db.definitionVotes ++ [(⟨db.nextVoteId, defId, userId, d⟩ : VoteRow)],
        w.id < db.nextVoteId + 1 := by
    intro d
    constructor
    · rw [List.map_append]
      apply List.pairwise_append.mpr
      refine ⟨hNd, List.pairwise_singleton _ _, ?_⟩
      intro a ha b hb
      rw [List.map_singleton, List.mem_singleton] at hb
      subst hb
      obtain ⟨u, hu, rfl⟩ := List.mem_map.mp ha
      exact Nat.ne_of_lt (hLt u hu)
    · intro w hw
      rcases List.mem_append.mp hw with h | h
      · exact Nat.lt_succ_of_lt (hLt w h)
      · rw [List.mem_singleton] at h
        subst h
        exact Nat.lt_succ_self _
  by_cases hvtu : (voteType == "up") = true
  · simp only [if_pos hvtu]
    refine ⟨?_, ?_, ?_, ?_⟩
    · have H := countersAgree_generic db.definitions db.definitionVotes
        (db.definitionVotes ++ [⟨db.nextVoteId, defId, userId, Dir.up⟩]) defId incUp 1 0
        hC
        (fun r => rfl)
        (fun r => rfl)
        (by
          intro r
          show r.downvotes = r.downvotes + 0
          omega)
        (by
          intro rid hrid d
          have h := ledgerCount_append_one db.definitionVotes
            ⟨db.nextVoteId, defId, userId, Dir.up⟩ rid d
          rw [if_neg (fun hc => hrid hc.1.symm)] at h
          omega)
        (by
          have h := ledgerCount_append_one db.definitionVotes
            ⟨db.nextVoteId, defId, userId, Dir.up⟩ defId Dir.up
          rw [if_pos ⟨rfl, rfl⟩] at h
          omega)
        (by
          have h := ledgerCount_append_one db.definitionVotes
            ⟨db.nextVoteId, defId, userId, Dir.up⟩ defId Dir.down
          rw [if_neg (fun hc => by cases hc.2)] at h
          omega)
      intro r' hr'
      exact H r' hr'
    · exact hP' Dir.up
    · exact (hFresh Dir.up).1
    · exact (hFresh Dir.up).2
  · simp only [if_neg hvtu]
    refine ⟨?_, ?_, ?_, ?_⟩
    · have H := countersAgree_generic db.definitions db.definitionVotes
        (db.definitionVotes ++ [⟨db.nextVoteId, defId, userId, Dir.down⟩]) defId incDown 0 1
        hC
        (fun r => rfl)
        (by
          intro r
          show r.upvotes = r.upvotes + 0
          omega)
        (fun r => rfl)
        (by
          intro rid hrid d
          have h := ledgerCount_append_one db.definitionVotes
            ⟨db.nextVoteId, defId, userId, Dir.down⟩ rid d
          rw [if_neg (fun hc => hrid hc.1.symm)] at h
          omega)
        (by
          have h := ledgerCount_append_one db.definitionVotes
            ⟨db.nextVoteId, defId, userId, Dir.down⟩ defId Dir.up
          rw [if_neg (fun hc => by cases hc.2)] at h
          omega)
        (by
          have h := ledgerCount_append_one db.definitionVotes
            ⟨db.nextVoteId, defId, userId, Dir.down⟩ defId Dir.down
          rw [if_pos ⟨rfl, rfl⟩] at h
          omega)
      intro r' hr'
      exact H r' hr'
    · exact hP' Dir.down
    · exact (hFresh Dir.down).1
    · exact (hFresh Dir.down).2

/-- The transaction preserves well-formedness whenever it commits. -/
theorem WFdb_voteTransaction (db db1 : DB) (userId : String) (defId : Nat)
    (voteType : String)
    (hWF : WFdb db)
    (hvt : voteType = "up" ∨ voteType = "down" ∨ voteType = "remove")
    (heq : voteTransaction db userId defId voteType
      (db.definitionVotes.find? (votePred defId userId)) = some db1) :
    WFdb db1 := by
  unfold voteTransaction at heq
  split at heq
  · split at heq
    next v hfind =>
      cases heq
      exact WFdb_after_remove db userId defId v hWF hfind
    next hfind =>
      cases heq
      exact hWF
  next hrem =>
    split at heq
    next v hfind =>
      split at heq
      next hch =>
        cases heq
        refine WFdb_after_switch db userId defId v voteType hWF hfind ?_ (bne_iff_ne.mp hch)
        rcases hvt with h | h | h
        · exact Or.inl h
        · exact Or.inr h
        · exact absurd (beq_iff_eq.mpr h) hrem
      next hch =>
        cases heq
        exact hWF
    next hfind =>
      split at heq
      next hcons =>
        cases heq
        exact WFdb_after_insert db userId defId voteType hWF hfind
      next hcons =>
        cases heq

/-- The handler preserves well-formedness for every request. -/
theorem WFdb_votePOST (db : DB) (session : Option String) (definitionId : Option Nat)
    (voteType : String) (hWF : WFdb db) :
    WFdb (votePOST db session definitionId voteType).2 := by
  unfold votePOST
  cases session with
  | none => exact hWF
  | some userId =>
    cases definitionId with
    | none => exact hWF
    | some defId =>
      dsimp only
      by_cases hg : (defId == 0
          || !((["up", "down", "remove"] : List String).contains voteType)) = true
      · rw [if_pos hg]
        exact hWF
      · rw [if_neg hg]
        have hvt : voteType = "up" ∨ voteType = "down" ∨ voteType = "remove" := by
          cases hcb : (["up", "down", "remove"] : List String).contains voteType with
          | false =>
            exact absurd (by rw [hcb]; exact Bool.or_true _) hg
          | true =>
            have hmem : voteType ∈ (["up", "down", "remove"] : List String) :=
              List.elem_iff.mp hcb
            rcases List.mem_cons.mp hmem with h | h
            · exact Or.inl h
            rcases List.mem_cons.mp h with h2 | h2
            · exact Or.inr (Or.inl h2)
            rcases List.mem_cons.mp h2 with h3 | h3
            · exact Or.inr (Or.inr h3)
            · cases h3
        split
        next db1 heq => exact WFdb_voteTransaction db db1 userId defId voteType hWF hvt heq
        next heq => exact hWF

/-- The actor holds at most one ledger row per target in any well-formed state. -/
theorem actorVoteCount_le_one (db : DB) (defId : Nat) (userId : String)
    (hWF : WFdb db) : actorVoteCount db defId userId ≤ 1 :=
  actor_count_le_one db.definitionVotes hWF.2.1 defId userId

/-- C1 — the counter–ledger agreement and single-vote-per-actor invariants hold
after every vote call starting from a well-formed state; in particular, after a
call (successful or not) the denormalized `upvotes`/`downvotes` of every
definition equal the respective ledger row counts, and every actor has zero or
one ledger row per target. -/
theorem C1_counter_ledger_invariant (db : DB) (session : Option String)
    (definitionId : Option Nat) (voteType : String) (hWF : WFdb db) :
    WFdb (votePOST db session definitionId voteType).2 ∧
    countersAgree (votePOST db session definitionId voteType).2 ∧
    ∀ (defId : Nat) (userId : String),
      actorVoteCount (votePOST db session definitionId voteType).2 defId userId ≤ 1 := by
  have h := WFdb_votePOST db session definitionId voteType hWF
  exact ⟨h, h.1, fun defId userId => actor_count_le_one _ h.2.1 defId userId⟩

/-- Witness for C1 at a concrete well-formed state and call. -/
theorem C1_counter_ledger_invariant_witness :
    WFdb (⟨[⟨1, 1, 0⟩], [⟨0, 1, "alice", Dir.up⟩], 1⟩ : DB) ∧
    WFdb (votePOST ⟨[⟨1, 1, 0⟩], [⟨0, 1, "alice", Dir.up⟩], 1⟩
      (some "bob") (some 1) "down").2 := by
  constructor
  · decide
  · exact (C1_counter_ledger_invariant ⟨[⟨1, 1, 0⟩], [⟨0, 1, "alice", Dir.up⟩], 1⟩
      (some "bob") (some 1) "down" (by decide)).1

/-! ### The state machine of the vote handler (spec §4.1 table) -/

theorem voteTransaction_remove_some (db : DB) (u : String) (d : Nat) (v : VoteRow) :
    voteTransaction db u d "remove" (some v) =
      some { db with
        definitionVotes := deleteVoteById db.definitionVotes v.id,
        definitions :=
          if v.voteType = Dir.up then updateWhereId db.definitions d decUp
          else updateWhereId db.definitions d decDown } := rfl

theorem voteTransaction_remove_none (db : DB) (u : String) (d : Nat) :
    voteTransaction db u d "remove" none = some db := rfl

theorem voteTransaction_same_up (db : DB) (u : String) (d : Nat) (v : VoteRow)
    (hv : v.voteType = Dir.up) :
    voteTransaction db u d "up" (some v) = some db := by
  simp only [voteTransaction]
  rw [hv]
  rfl

theorem voteTransaction_same_down (db : DB) (u : String) (d : Nat) (v : VoteRow)
    (hv : v.voteType = Dir.down) :
    voteTransaction db u d "down" (some v) = some db := by
  simp only [voteTransaction]
  rw [hv]
  rfl

theorem voteTransaction_switch_to_down (db : DB) (u : String) (d : Nat) (v : VoteRow)
    (hv : v.voteType = Dir.up) :
    voteTransaction db u d "down" (some v) =
      some { db with
        definitionVotes := setVoteTypeById db.definitionVotes v.id Dir.down,
        definitions := updateWhereId db.definitions d switchToDown } := by
  simp only [voteTransaction]
  rw [hv]
  rfl

theorem voteTransaction_switch_to_up (db : DB) (u : String) (d : Nat) (v : VoteRow)
    (hv : v.voteType = Dir.down) :
    voteTransaction db u d "up" (some v) =
      some { db with
        definitionVotes := setVoteTypeById db.definitionVotes v.id Dir.up,
        definitions := updateWhereId db.definitions d switchToUp } := by
  simp only [voteTransaction]
  rw [hv]
  rfl

theorem voteTransaction_insert_up (db : DB) (u : String) (d : Nat)
    (hfk : db.definitions.any (fun r => r.id == d) = true)
    (hnc : db.definitionVotes.any (votePred d u) = false) :
    voteTransaction db u d "up" none =
      some { db with
        definitionVotes := db.definitionVotes ++ [⟨db.nextVoteId, d, u, Dir.up⟩],
        definitions := updateWhereId db.definitions d incUp,
        nextVoteId := db.nextVoteId + 1 } := by
  unfold voteTransaction
  rw [hfk, hnc]
  rfl

theorem voteTransaction_insert_down (db : DB) (u : String) (d : Nat)
    (hfk : db.definitions.any (fun r => r.id == d) = true)
    (hnc : db.definitionVotes.any (votePred d u) = false) :
    voteTransaction db u d "down" none =
      some { db with
        definitionVotes := db.definitionVotes ++ [⟨db.nextVoteId, d, u, Dir.down⟩],
        definitions := updateWhereId db.definitions d incDown,
        nextVoteId := db.nextVoteId + 1 } := by
  unfold voteTransaction
  rw [hfk, hnc]
  rfl

/-- With an authenticated actor and a valid request body, the handler is the
transaction's result. -/
theorem votePOST_valid (db : DB) (userId : String) (defId : Nat) (voteType : String)
    (hd0 : defId ≠ 0)
    (hvt : ((["up", "down", "remove"] : List String).contains voteType) = true) :
    votePOST db (some userId) (some defId) voteType =
      match voteTransaction db userId defId voteType
          (db.definitionVotes.find? (votePred defId userId)) with
      | some db1 => (VoteResponse.success, db1)
      | none => (VoteResponse.serverError, db) := by
  unfold votePOST
  dsimp only
  rw [hvt, beq_eq_false_iff_ne.mpr hd0]
  rfl

/-- C2 — the vote handler implements exactly the spec's state-machine table
over (existing vote, requested action): no-ops for (none, remove) and repeated
directions (still returning success), insert + increment for a new vote,
delete + decrement for a removal, and a single combined update for a switch. -/
theorem C2_vote_state_machine (db : DB) (userId : String) (defId : Nat)
    (hd0 : defId ≠ 0)
    (hdef : db.definitions.any (fun r => r.id == defId) = true) :
    -- (none, remove): ledger no-op, counter no-op, still success
    (db.definitionVotes.find? (votePred defId userId) = none →
      votePOST db (some userId) (some defId) "remove" = (VoteResponse.success, db)) ∧
    -- (none, up): insert one ledger row, increment the up counter by 1
    (db.definitionVotes.find? (votePred defId userId) = none →
      votePOST db (some userId) (some defId) "up" = (VoteResponse.success,
        { db with
          definitionVotes := db.definitionVotes ++ [⟨db.nextVoteId, defId, userId, Dir.up⟩],
          definitions := updateWhereId db.definitions defId incUp,
          nextVoteId := db.nextVoteId + 1 })) ∧
    -- (none, down): insert one ledger row, increment the down counter by 1
    (db.definitionVotes.find? (votePred defId userId) = none →
      votePOST db (some userId) (some defId) "down" = (VoteResponse.success,
        { db with
          definitionVotes := db.definitionVotes ++ [⟨db.nextVoteId, defId, userId, Dir.down⟩],
          definitions := updateWhereId db.definitions defId incDown,
          nextVoteId := db.nextVoteId + 1 })) ∧
    -- (up, up) and (down, down): complete no-op, still success
    (∀ v, db.definitionVotes.find? (votePred defId userId) = some v →
      votePOST db (some userId) (some defId) (dirToString v.voteType)
        = (VoteResponse.success, db)) ∧
    -- (up, remove): delete the ledger row, decrement the up counter by 1
    (∀ v, db.definitionVotes.find? (votePred defId userId) = some v → v.voteType = Dir.up →
      votePOST db (some userId) (some defId) "remove" = (VoteResponse.success,
        { db with
          definitionVotes := deleteVoteById db.definitionVotes v.id,
          definitions := updateWhereId db.definitions defId decUp })) ∧
    -- (down, remove): delete the ledger row, decrement the down counter by 1
    (∀ v, db.definitionVotes.find? (votePred defId userId) = some v → v.voteType = Dir.down →
      votePOST db (some userId) (some defId) "remove" = (VoteResponse.success,
        { db with
          definitionVotes := deleteVoteById db.definitionVotes v.id,
          definitions := updateWhereId db.definitions defId decDown })) ∧
    -- (up, down): update the row's direction; decrement up and increment down
    -- in one combined update
    (∀ v, db.definitionVotes.find? (votePred defId userId) = some v → v.voteType = Dir.up →
      votePOST db (some userId) (some defId) "down" = (VoteResponse.success,
        { db with
          definitionVotes := setVoteTypeById db.definitionVotes v.id Dir.down,
          definitions := updateWhereId db.definitions defId switchToDown })) ∧
    -- (down, up): update the row's direction; decrement down and increment up
    -- in one combined update
    (∀ v, db.definitionVotes.find? (votePred defId userId) = some v → v.voteType = Dir.down →
      votePOST db (some userId) (some defId) "up" = (VoteResponse.success,
        { db with
          definitionVotes := setVoteTypeById db.definitionVotes v.id Dir.up,
          definitions := updateWhereId db.definitions defId switchToUp })) := by
  have hnc : ∀ _h : db.definitionVotes.find? (votePred defId userId) = none,
      db.definitionVotes.any (votePred defId userId) = false := by
    intro h
    cases ha : db.definitionVotes.any (votePred defId userId) with
    | false => rfl
    | true =>
      obtain ⟨x, hx, hpx⟩ := List.any_eq_true.mp ha
      exact absurd hpx (List.find?_eq_none.mp h x hx)
  refine ⟨?_, ?_, ?_, ?_, ?_, ?_, ?_, ?_⟩
  · intro hfind
    rw [votePOST_valid db userId defId "remove" hd0 rfl, hfind,
      voteTransaction_remove_none]
  · intro hfind
    rw [votePOST_valid db userId defId "up" hd0 rfl, hfind,
      voteTransaction_insert_up db userId defId hdef (hnc hfind)]
  · intro hfind
    rw [votePOST_valid db userId defId "down" hd0 rfl, hfind,
      voteTransaction_insert_down db userId defId hdef (hnc hfind)]
  · intro v hfind
    cases hv : v.voteType with
    | up =>
      rw [show dirToString Dir.up = "up" from rfl,
        votePOST_valid db userId defId "up" hd0 rfl, hfind,
        voteTransaction_same_up db userId defId v hv]
    | down =>
      rw [show dirToString Dir.down = "down" from rfl,
        votePOST_valid db userId defId "down" hd0 rfl, hfind,
        voteTransaction_same_down db userId defId v hv]
  · intro v hfind hv
    rw [votePOST_valid db userId defId "remove" hd0 rfl, hfind,
      voteTransaction_remove_some, if_pos hv]
  · intro v hfind hv
    have hvne : ¬(v.voteType = Dir.up) := by rw [hv]; intro h; cases h
    rw [votePOST_valid db userId defId "remove" hd0 rfl, hfind,
      voteTransaction_remove_some, if_neg hvne]
  · intro v hfind hv
    rw [votePOST_valid db userId defId "down" hd0 rfl, hfind,
      voteTransaction_switch_to_down db userId defId v hv]
  · intro v hfind hv
    rw [votePOST_valid db userId defId "up" hd0 rfl, hfind,
      voteTransaction_switch_to_up db userId defId v hv]

/-- Witness for C2: a fresh up-vote on a one-definition database. -/
theorem C2_vote_state_machine_witness :
    votePOST ⟨[⟨1, 0, 0⟩], [], 0⟩ (some "alice") (some 1) "up"
      = (VoteResponse.success, ⟨[⟨1, 1, 0⟩], [⟨0, 1, "alice", Dir.up⟩], 1⟩) := by
  have h := (C2_vote_state_machine ⟨[⟨1, 0, 0⟩], [], 0⟩ "alice" 1
    (by decide) (by decide)).2.1 rfl
  exact h.trans (by decide)

/-! ### Error handling of the vote handler -/

theorem votePOST_commit (db db1 : DB) (userId : String) (defId : Nat) (voteType : String)
    (hd0 : defId ≠ 0)
    (hvt : ((["up", "down", "remove"] : List String).contains voteType) = true)
    (htx : voteTransaction db userId defId voteType
      (db.definitionVotes.find? (votePred defId userId)) = some db1) :
    votePOST db (some userId) (some defId) voteType = (VoteResponse.success, db1) := by
  rw [votePOST_valid db userId defId voteType hd0 hvt, htx]

theorem votePOST_rollback (db : DB) (userId : String) (defId : Nat) (voteType : String)
    (hd0 : defId ≠ 0)
    (hvt : ((["up", "down", "remove"] : List String).contains voteType) = true)
    (htx : voteTransaction db userId defId voteType
      (db.definitionVotes.find? (votePred defId userId)) = none) :
    votePOST db (some userId) (some defId) voteType = (VoteResponse.serverError, db) := by
  rw [votePOST_valid db userId defId voteType hd0 hvt, htx]

theorem voteTransaction_insert_fk_fail (db : DB) (u : String) (d : Nat) (voteType : String)
    (hne : (voteType == "remove") = false)
    (hfk : db.definitions.any (fun r => r.id == d) = false) :
    voteTransaction db u d voteType none = none := by
  unfold voteTransaction
  rw [hne, hfk]
  rfl

/-- C4 (counterexample) — on a database whose `definitions` table is empty, a
vote against the nonexistent target id 1 never fails with a NotFound status:
the handler answers 200 success for action `remove` and 500 Internal Server
Error (the foreign-key violation) for action `up`. -/
theorem C4_no_notfound_counterexample :
    WFdb (⟨[], [], 0⟩ : DB) ∧
    votePOST ⟨[], [], 0⟩ (some "alice") (some 1) "remove"
      = (VoteResponse.success, ⟨[], [], 0⟩) ∧
    votePOST ⟨[], [], 0⟩ (some "alice") (some 1) "up"
      = (VoteResponse.serverError, ⟨[], [], 0⟩) := by
  refine ⟨by decide, by decide, by decide⟩

/-- C4 (amended) — the handler rejects a missing actor with 401 and a
malformed body with 400; when the target does not exist it returns a 500
(foreign-key violation) for `up`/`down` and success (silent no-op) for
`remove`, never a NotFound; and every non-success response leaves the
database unchanged. -/
theorem C4_error_handling_amended :
    (∀ (db : DB) (definitionId : Option Nat) (voteType : String),
      votePOST db none definitionId voteType = (VoteResponse.unauthorized, db)) ∧
    (∀ (db : DB) (userId : String) (voteType : String),
      votePOST db (some userId) none voteType = (VoteResponse.invalidInput, db)) ∧
    (∀ (db : DB) (userId : String) (defId : Nat) (voteType : String),
      voteType ∉ (["up", "down", "remove"] : List String) →
      votePOST db (some userId) (some defId) voteType = (VoteResponse.invalidInput, db)) ∧
    (∀ (db : DB) (userId : String) (defId : Nat), defId ≠ 0 →
      db.definitions.any (fun r => r.id == defId) = false →
      db.definitionVotes.find? (votePred defId userId) = none →
      votePOST db (some userId) (some defId) "up" = (VoteResponse.serverError, db) ∧
      votePOST db (some userId) (some defId) "down" = (VoteResponse.serverError, db) ∧
      votePOST db (some userId) (some defId) "remove" = (VoteResponse.success, db)) ∧
    (∀ (db : DB) (session : Option String) (definitionId : Option Nat) (voteType : String),
      (votePOST db session definitionId voteType).1 ≠ VoteResponse.success →
      (votePOST db session definitionId voteType).2 = db) := by
  refine ⟨fun db dId vt => rfl, fun db u vt => rfl, ?_, ?_, ?_⟩
  · intro db userId defId voteType hvt
    have hc : ((["up", "down", "remove"] : List String).contains voteType) = false := by
      cases h : (["up", "down", "remove"] : List String).contains voteType with
      | true => exact absurd (List.elem_iff.mp h) hvt
      | false => rfl
    unfold votePOST
    dsimp only
    rw [if_pos (by rw [hc]; exact Bool.or_true _)]
  · intro db userId defId hd0 hfk hfind
    refine ⟨?_, ?_, ?_⟩
    · exact votePOST_rollback db userId defId "up" hd0 rfl
        (by rw [hfind, voteTransaction_insert_fk_fail db userId defId "up" rfl hfk])
    · exact votePOST_rollback db userId defId "down" hd0 rfl
        (by rw [hfind, voteTransaction_insert_fk_fail db userId defId "down" rfl hfk])
    · exact (votePOST_valid db userId defId "remove" hd0 rfl).trans
        (by rw [hfind, voteTransaction_remove_none])
  · intro db session definitionId voteType hresp
    revert hresp
    unfold votePOST
    cases session with
    | none => intro _; rfl
    | some userId =>
      cases definitionId with
      | none => intro _; rfl
      | some defId =>
        dsimp only
        by_cases hg : (defId == 0
            || !((["up", "down", "remove"] : List String).contains voteType)) = true
        · rw [if_pos hg]
          intro _
          rfl
        · rw [if_neg hg]
          cases htx : voteTransaction db userId defId voteType
              (db.definitionVotes.find? (votePred defId userId)) with
          | some db1 =>
            intro hresp
            exact absurd rfl hresp
          | none =>
            intro _
            rfl

/-- Witness for C4 (amended): the three failure modes plus the silent-success
remove at concrete inputs. -/
theorem C4_error_handling_amended_witness :
    votePOST ⟨[], [], 0⟩ none (some 1) "up" = (VoteResponse.unauthorized, ⟨[], [], 0⟩) ∧
    votePOST ⟨[], [], 0⟩ (some "alice") (some 1) "sideways"
      = (VoteResponse.invalidInput, ⟨[], [], 0⟩) ∧
    votePOST ⟨[], [], 0⟩ (some "alice") (some 1) "down"
      = (VoteResponse.serverError, ⟨[], [], 0⟩) := by
  obtain ⟨h1, _, h3, h4, _⟩ := C4_error_handling_amended
  exact ⟨h1 _ _ _, h3 ⟨[], [], 0⟩ "alice" 1 "sideways" (by decide),
    (h4 ⟨[], [], 0⟩ "alice" 1 (by decide) (by decide) rfl).2.1⟩

/-! ### Idempotence of repeated up-votes -/

theorem votePred_comp_setVote (d : Nat) (u : String) (vid : Nat) (dN : Dir) :
    (votePred d u ∘ fun v => if v.id == vid then { v with voteType := dN } else v)
      = votePred d u := by
  funext v
  show votePred d u (if v.id == vid then { v with voteType := dN } else v) = votePred d u v
  by_cases h : (v.id == vid) = true
  · rw [if_pos h]
    rfl
  · rw [if_neg h]

theorem find?_setVoteTypeById (votes : List VoteRow) (vid : Nat) (dN : Dir)
    (d : Nat) (u : String) :
    (setVoteTypeById votes vid dN).find? (votePred d u)
      = (votes.find? (votePred d u)).map
          (fun v => if v.id == vid then { v with voteType := dN } else v) := by
  unfold setVoteTypeById
  rw [List.find?_map, votePred_comp_setVote]

theorem any_votePred_false_of_find?_none (votes : List VoteRow) (d : Nat) (u : String)
    (hfind : votes.find? (votePred d u) = none) :
    votes.any (votePred d u) = false := by
  cases ha : votes.any (votePred d u) with
  | false => rfl
  | true =>
    obtain ⟨x, hx, hpx⟩ := List.any_eq_true.mp ha
    exact absurd hpx (List.find?_eq_none.mp hfind x hx)

theorem votePred_unique_row (votes : List VoteRow) (d : Nat) (u : String) (v : VoteRow)
    (hP : votes.Pairwise (fun a b => ¬(a.definitionId = b.definitionId ∧ a.userId = b.userId)))
    (hv : v ∈ votes) (hpv : votePred d u v = true) :
    ∀ w ∈ votes, votePred d u w = true → w = v := by
  intro w hw hpw
  by_contra hne
  have hR := List.Pairwise.forall
    (R := fun a b : VoteRow => ¬(a.definitionId = b.definitionId ∧ a.userId = b.userId))
    (fun a b hab hc => hab ⟨hc.1.symm, hc.2.symm⟩) hP hw hv hne
  obtain ⟨h1, h2⟩ := votePred_iff.mp hpv
  obtain ⟨h3, h4⟩ := votePred_iff.mp hpw
  exact hR ⟨h3.trans h1.symm, h4.trans h2.symm⟩

/-- Repeating an up-vote changes nothing: the second call returns the same
response and the same database state as the first, for every starting state. -/
theorem votePOST_up_idem (db : DB) (session : Option String) (definitionId : Option Nat) :
    votePOST (votePOST db session definitionId "up").2 session definitionId "up"
      = votePOST db session definitionId "up" := by
  cases session with
  | none => rfl
  | some userId =>
    cases definitionId with
    | none => rfl
    | some defId =>
      by_cases hd0 : defId = 0
      · subst hd0
        rfl
      · cases hfind : db.definitionVotes.find? (votePred defId userId) with
        | none =>
          by_cases hfk : db.definitions.any (fun r => r.id == defId) = true
          · have hnc := any_votePred_false_of_find?_none db.definitionVotes defId userId hfind
            have h1 : votePOST db (some userId) (some defId) "up"
                = (VoteResponse.success, { db with
                    definitionVotes := db.definitionVotes
                      ++ [⟨db.nextVoteId, defId, userId, Dir.up⟩],
                    definitions := updateWhereId db.definitions defId incUp,
                    nextVoteId := db.nextVoteId + 1 }) :=
              votePOST_commit db _ userId defId "up" hd0 rfl
                (by rw [hfind]; exact voteTransaction_insert_up db userId defId hfk hnc)
            rw [h1]
            refine votePOST_commit _ _ userId defId "up" hd0 rfl ?_
            dsimp only
            rw [List.find?_append, hfind, Option.none_or,
              List.find?_cons_of_pos _ (by simp [votePred])]
            exact voteTransaction_same_up _ userId defId _ rfl
          · have hfkf : db.definitions.any (fun r => r.id == defId) = false := by
              cases h : db.definitions.any (fun r => r.id == defId) with
              | true => exact absurd h hfk
              | false => rfl
            have h1 : votePOST db (some userId) (some defId) "up"
                = (VoteResponse.serverError, db) :=
              votePOST_rollback db userId defId "up" hd0 rfl
                (by rw [hfind]
                    exact voteTransaction_insert_fk_fail db userId defId "up" rfl hfkf)
            rw [h1]
            exact h1
        | some v =>
          cases hv : v.voteType with
          | up =>
            have h1 : votePOST db (some userId) (some defId) "up"
                = (VoteResponse.success, db) :=
              votePOST_commit db db userId defId "up" hd0 rfl
                (by rw [hfind]; exact voteTransaction_same_up db userId defId v hv)
            rw [h1]
            exact h1
          | down =>
            have h1 : votePOST db (some userId) (some defId) "up"
                = (VoteResponse.success, { db with
                    definitionVotes := setVoteTypeById db.definitionVotes v.id Dir.up,
                    definitions := updateWhereId db.definitions defId switchToUp }) :=
              votePOST_commit db _ userId defId "up" hd0 rfl
                (by rw [hfind]; exact voteTransaction_switch_to_up db userId defId v hv)
            rw [h1]
            refine votePOST_commit _ _ userId defId "up" hd0 rfl ?_
            dsimp only
            rw [find?_setVoteTypeById, hfind]
            show voteTransaction _ userId defId "up"
              (some (if v.id == v.id then { v with voteType := Dir.up } else v)) = _
            rw [if_pos (beq_self_eq_true v.id)]
            exact voteTransaction_same_up _ userId defId _ rfl

/-- Effect of an up-vote when the actor's prior vote is not `up`: the call
succeeds, the target's up counter is one higher, and the actor ends with
exactly one up ledger row. -/
theorem votePOST_up_effect (db : DB) (userId : String) (defId : Nat)
    (hWF : WFdb db) (hd0 : defId ≠ 0)
    (hdef : db.definitions.any (fun r => r.id == defId) = true)
    (hprior : ∀ v, db.definitionVotes.find? (votePred defId userId) = some v →
      v.voteType = Dir.down) :
    (votePOST db (some userId) (some defId) "up").1 = VoteResponse.success ∧
    (votePOST db (some userId) (some defId) "up").2.definitions.map (fun r => r.upvotes)
      = db.definitions.map (fun r => if r.id == defId then r.upvotes + 1 else r.upvotes) ∧
    (votePOST db (some userId) (some defId) "up").2.definitionVotes.countP
      (fun w => votePred defId userId w && w.voteType == Dir.up) = 1 := by
  obtain ⟨_, hP, hNd, _⟩ := hWF
  have hmapUp : ∀ (g : DefRow → DefRow), (∀ r, (g r).upvotes = r.upvotes + 1) →
      (updateWhereId db.definitions defId g).map (fun r => r.upvotes)
        = db.definitions.map (fun r => if r.id == defId then r.upvotes + 1 else r.upvotes) := by
    intro g hg
    unfold updateWhereId
    rw [List.map_map]
    apply List.map_congr_left
    intro r _
    show (if (r.id == defId) = true then g r else r).upvotes = _
    by_cases h : (r.id == defId) = true
    · rw [if_pos h, if_pos h, hg r]
    · rw [if_neg h, if_neg h]
  cases hfind : db.definitionVotes.find? (votePred defId userId) with
  | none =>
    have hnc := any_votePred_false_of_find?_none db.definitionVotes defId userId hfind
    have h1 : votePOST db (some userId) (some defId) "up"
        = (VoteResponse.success, { db with
            definitionVotes := db.definitionVotes
              ++ [⟨db.nextVoteId, defId, userId, Dir.up⟩],
            definitions := updateWhereId db.definitions defId incUp,
            nextVoteId := db.nextVoteId + 1 }) :=
      votePOST_commit db _ userId defId "up" hd0 rfl
        (by rw [hfind]; exact voteTransaction_insert_up db userId defId hdef hnc)
    rw [h1]
    refine ⟨rfl, hmapUp incUp (fun r => rfl), ?_⟩
    dsimp only
    have hzero : db.definitionVotes.countP
        (fun w => votePred defId userId w && w.voteType == Dir.up) = 0 := by
      rw [List.countP_eq_zero]
      intro w hw hq
      rw [Bool.and_eq_true] at hq
      exact (List.find?_eq_none.mp hfind w hw) hq.1
    rw [List.countP_append, hzero, List.countP_cons, List.countP_nil,
      if_pos (by simp [votePred])]
  | some v =>
    have hv := hprior v hfind
    have hvmem : v ∈ db.definitionVotes := List.mem_of_find?_eq_some hfind
    have hpv : votePred defId userId v = true := List.find?_some hfind
    have h1 : votePOST db (some userId) (some defId) "up"
        = (VoteResponse.success, { db with
            definitionVotes := setVoteTypeById db.definitionVotes v.id Dir.up,
            definitions := updateWhereId db.definitions defId switchToUp }) :=
      votePOST_commit db _ userId defId "up" hd0 rfl
        (by rw [hfind]; exact voteTransaction_switch_to_up db userId defId v hv)
    rw [h1]
    refine ⟨rfl, hmapUp switchToUp (fun r => rfl), ?_⟩
    dsimp only
    have hcnt := countP_setVoteTypeById db.definitionVotes v Dir.up
      (fun w => votePred defId userId w && w.voteType == Dir.up) hNd hvmem
    have hqv : (votePred defId userId v && (v.voteType == Dir.up)) = false := by
      rw [hv]
      simp
    have hqv' : (votePred defId userId { v with voteType := Dir.up }
        && ({ v with voteType := Dir.up }.voteType == Dir.up)) = true := by
      rw [show votePred defId userId { v with voteType := Dir.up }
          = votePred defId userId v from rfl, hpv]
      rfl
    have hcnt2 : (setVoteTypeById db.definitionVotes v.id Dir.up).countP
          (fun w => votePred defId userId w && w.voteType == Dir.up)
        + (if (votePred defId userId v && (v.voteType == Dir.up)) then 1 else 0)
      = db.definitionVotes.countP (fun w => votePred defId userId w && w.voteType == Dir.up)
        + (if (votePred defId userId { v with voteType := Dir.up }
            && ({ v with voteType := Dir.up }.voteType == Dir.up)) then 1 else 0) := hcnt
    rw [hqv, hqv'] at hcnt2
    rw [if_neg (by simp), if_pos rfl] at hcnt2
    have hzero : db.definitionVotes.countP
        (fun w => votePred defId userId w && w.voteType == Dir.up) = 0 := by
      rw [List.countP_eq_zero]
      intro w hw hq
      rw [Bool.and_eq_true] at hq
      obtain ⟨hq1, hq2⟩ := hq
      have hwv : w = v := votePred_unique_row db.definitionVotes defId userId v hP hvmem hpv w hw hq1
      rw [hwv, hv] at hq2
      cases hq2
    rw [hzero] at hcnt2
    omega

/-- C5 (counterexample) — idempotence's "+1" clause fails when the actor
already holds an up vote: the call succeeds but leaves the up counter (and
everything else) unchanged, not one higher. -/
theorem C5_idempotence_counterexample :
    WFdb (⟨[⟨1, 1, 0⟩], [⟨0, 1, "alice", Dir.up⟩], 1⟩ : DB) ∧
    votePOST ⟨[⟨1, 1, 0⟩], [⟨0, 1, "alice", Dir.up⟩], 1⟩ (some "alice") (some 1) "up"
      = (VoteResponse.success, ⟨[⟨1, 1, 0⟩], [⟨0, 1, "alice", Dir.up⟩], 1⟩) ∧
    ¬((votePOST ⟨[⟨1, 1, 0⟩], [⟨0, 1, "alice", Dir.up⟩], 1⟩
          (some "alice") (some 1) "up").2.definitions.map (fun r => r.upvotes)
        = (⟨[⟨1, 1, 0⟩], [⟨0, 1, "alice", Dir.up⟩], 1⟩ : DB).definitions.map
            (fun r => r.upvotes + 1)) := by
  refine ⟨by decide, by decide, by decide⟩

/-- C5 (amended) — calling `castVote(actor, target, "up")` twice in a row
yields the same end state (and response) as calling it once, for every
starting state; and when the actor's prior vote is not `up`, the single call
succeeds, raises the target's up counter by exactly 1, and leaves the actor
with exactly one up ledger row. -/
theorem C5_idempotence_amended :
    (∀ (db : DB) (session : Option String) (definitionId : Option Nat),
      votePOST (votePOST db session definitionId "up").2 session definitionId "up"
        = votePOST db session definitionId "up") ∧
    (∀ (db : DB) (userId : String) (defId : Nat), WFdb db → defId ≠ 0 →
      db.definitions.any (fun r => r.id == defId) = true →
      (∀ v, db.definitionVotes.find? (votePred defId userId) = some v →
        v.voteType = Dir.down) →
      (votePOST db (some userId) (some defId) "up").1 = VoteResponse.success ∧
      (votePOST db (some userId) (some defId) "up").2.definitions.map (fun r => r.upvotes)
        = db.definitions.map (fun r => if r.id == defId then r.upvotes + 1 else r.upvotes) ∧
      (votePOST db (some userId) (some defId) "up").2.definitionVotes.countP
        (fun w => votePred defId userId w && w.voteType == Dir.up) = 1) :=
  ⟨votePOST_up_idem,
   fun db userId defId hWF hd0 hdef hprior =>
     votePOST_up_effect db userId defId hWF hd0 hdef hprior⟩

/-- Witness for C5 (amended): a fresh up-vote by an actor with no prior vote. -/
theorem C5_idempotence_amended_witness :
    votePOST (votePOST ⟨[⟨1, 0, 0⟩], [], 0⟩ (some "alice") (some 1) "up").2
        (some "alice") (some 1) "up"
      = votePOST ⟨[⟨1, 0, 0⟩], [], 0⟩ (some "alice") (some 1) "up" ∧
    (votePOST ⟨[⟨1, 0, 0⟩], [], 0⟩ (some "alice") (some 1) "up").2.definitionVotes.countP
      (fun w => votePred 1 "alice" w && w.voteType == Dir.up) = 1 := by
  obtain ⟨ha, hb⟩ := C5_idempotence_amended
  exact ⟨ha ⟨[⟨1, 0, 0⟩], [], 0⟩ (some "alice") (some 1),
    (hb ⟨[⟨1, 0, 0⟩], [], 0⟩ "alice" 1 (by decide) (by decide) (by decide)
      (fun v h => nomatch h)).2.2⟩

/-! ### Round trip: up then remove -/

/-- C6 — for an actor with no pre-existing vote on the target, `up` followed by
`remove` returns the `definitions` table (hence both counters) and the vote
ledger exactly to the pre-vote state.  The identity-column integrity
hypothesis (`hfresh`) is part of well-formedness of the store. -/
theorem C6_up_remove_round_trip (db : DB) (userId : String) (defId : Nat)
    (hnov : db.definitionVotes.find? (votePred defId userId) = none)
    (hfresh : ∀ v ∈ db.definitionVotes, v.id < db.nextVoteId) :
    (votePOST (votePOST db (some userId) (some defId) "up").2
        (some userId) (some defId) "remove").2.definitions = db.definitions ∧
    (votePOST (votePOST db (some userId) (some defId) "up").2
        (some userId) (some defId) "remove").2.definitionVotes = db.definitionVotes := by
  by_cases hd0 : defId = 0
  · subst hd0
    exact ⟨rfl, rfl⟩
  · by_cases hfk : db.definitions.any (fun r => r.id == defId) = true
    · have hnc := any_votePred_false_of_find?_none db.definitionVotes defId userId hnov
      have h1 : votePOST db (some userId) (some defId) "up"
          = (VoteResponse.success, { db with
              definitionVotes := db.definitionVotes
                ++ [⟨db.nextVoteId, defId, userId, Dir.up⟩],
              definitions := updateWhereId db.definitions defId incUp,
              nextVoteId := db.nextVoteId + 1 }) :=
        votePOST_commit db _ userId defId "up" hd0 rfl
          (by rw [hnov]; exact voteTransaction_insert_up db userId defId hfk hnc)
      rw [h1]
      dsimp only
      have hfind1 : (db.definitionVotes
            ++ [(⟨db.nextVoteId, defId, userId, Dir.up⟩ : VoteRow)]).find? (votePred defId userId)
          = some (⟨db.nextVoteId, defId, userId, Dir.up⟩ : VoteRow) := by
        rw [List.find?_append, hnov, Option.none_or,
          List.find?_cons_of_pos _ (by simp [votePred])]
      have h2 : votePOST ({ db with
            definitionVotes := db.definitionVotes
              ++ [⟨db.nextVoteId, defId, userId, Dir.up⟩],
            definitions := updateWhereId db.definitions defId incUp,
            nextVoteId := db.nextVoteId + 1 } : DB) (some userId) (some defId) "remove"
          = (VoteResponse.success, { db with
              definitionVotes := deleteVoteById (db.definitionVotes
                ++ [⟨db.nextVoteId, defId, userId, Dir.up⟩]) db.nextVoteId,
              definitions := updateWhereId (updateWhereId db.definitions defId incUp)
                defId decUp,
              nextVoteId := db.nextVoteId + 1 }) := by
        refine votePOST_commit _ _ userId defId "remove" hd0 rfl ?_
        dsimp only
        rw [hfind1, voteTransaction_remove_some]
        rfl
      rw [h2]
      dsimp only
      constructor
      · unfold updateWhereId
        rw [List.map_map]
        have hcomp : ∀ r ∈ db.definitions,
            ((fun r => if r.id == defId then decUp r else r)
              ∘ (fun r => if r.id == defId then incUp r else r)) r = r := by
          intro r _
          show (fun r2 => if r2.id == defId then decUp r2 else r2)
            (if r.id == defId then incUp r else r) = r
          by_cases h : (r.id == defId) = true
          · rw [if_pos h]
            show (if (incUp r).id == defId then decUp (incUp r) else incUp r) = r
            have h2 : ((incUp r).id == defId) = true := h
            rw [if_pos h2]
            show DefRow.mk r.id (r.upvotes + 1 - 1) r.downvotes = r
            have harith : r.upvotes + 1 - 1 = r.upvotes := by omega
            rw [harith]
          · rw [if_neg h]
            show (if r.id == defId then decUp r else r) = r
            rw [if_neg h]
        rw [List.map_congr_left hcomp, List.map_id']
      · unfold deleteVoteById
        rw [List.filter_append]
        have hsingle : ([⟨db.nextVoteId, defId, userId, Dir.up⟩] : List VoteRow).filter
            (fun v => v.id != db.nextVoteId) = [] := by
          rw [List.filter_cons, if_neg (by simp)]
          rfl
        have hkeep : db.definitionVotes.filter (fun v => v.id != db.nextVoteId)
            = db.definitionVotes :=
          List.filter_eq_self.mpr
            (fun v hv => bne_iff_ne.mpr (Nat.ne_of_lt (hfresh v hv)))
        rw [hsingle, hkeep, List.append_nil]
    · have hfkf : db.definitions.any (fun r => r.id == defId) = false := by
        cases h : db.definitions.any (fun r => r.id == defId) with
        | true => exact absurd h hfk
        | false => rfl
      have h1 : votePOST db (some userId) (some defId) "up"
          = (VoteResponse.serverError, db) :=
        votePOST_rollback db userId defId "up" hd0 rfl
          (by rw [hnov]; exact voteTransaction_insert_fk_fail db userId defId "up" rfl hfkf)
      rw [h1]
      dsimp only
      have h2 : votePOST db (some userId) (some defId) "remove"
          = (VoteResponse.success, db) :=
        votePOST_commit db db userId defId "remove" hd0 rfl
          (by rw [hnov]; exact voteTransaction_remove_none db userId defId)
      rw [h2]
      exact ⟨rfl, rfl⟩

/-- Witness for C6: a fresh actor on a one-definition database. -/
theorem C6_up_remove_round_trip_witness :
    (votePOST (votePOST ⟨[⟨1, 5, 7⟩], [], 3⟩ (some "alice") (some 1) "up").2
        (some "alice") (some 1) "remove").2.definitions
      = (⟨[⟨1, 5, 7⟩], [], 3⟩ : DB).definitions ∧
    (votePOST (votePOST ⟨[⟨1, 5, 7⟩], [], 3⟩ (some "alice") (some 1) "up").2
        (some "alice") (some 1) "remove").2.definitionVotes
      = (⟨[⟨1, 5, 7⟩], [], 3⟩ : DB).definitionVotes :=
  C6_up_remove_round_trip ⟨[⟨1, 5, 7⟩], [], 3⟩ "alice" 1 (by decide) (by decide)

/-! ### Concurrency: the existing-vote read happens outside the transaction -/

/-- A vote request by an authenticated actor (the parameters reaching the
handler after the input checks). -/
structure VoteCall where
  userId : String
  definitionId : Nat
  voteType : String
deriving DecidableEq, Repr

/-- Phase 1 of the handler: the `findFirst` read of the actor's existing vote.
In the source this `await db.query.definitionVotes.findFirst(...)` executes
*before* `db.transaction(...)` is opened. -/
def voteReadPhase (db : DB) (c : VoteCall) : Option VoteRow :=
  db.definitionVotes.find? (votePred c.definitionId c.userId)

/-- Phase 2 of the handler: the `db.transaction` block, atomic in itself, using
the vote read in phase 1 (which may be stale by the time the transaction runs). -/
def voteTxPhase (db : DB) (c : VoteCall) (existingVote : Option VoteRow) :
    VoteResponse × DB :=
  match voteTransaction db c.userId c.definitionId c.voteType existingVote with
  | some db1 => (VoteResponse.success, db1)
  | none => (VoteResponse.serverError, db)

/-- The read₁ read₂ tx₁ tx₂ interleaving of two concurrent calls: both reads
observe the initial state, then the two transactions commit one after the
other.  This schedule exists precisely because the read is outside the
transaction. -/
def runReadReadTxTx (db : DB) (c1 c2 : VoteCall) : (VoteResponse × VoteResponse) × DB :=
  let e1 := voteReadPhase db c1
  let e2 := voteReadPhase db c2
  let r1 := voteTxPhase db c1 e1
  let r2 := voteTxPhase r1.2 c2 e2
  ((r1.1, r2.1), r2.2)

/-- Serial execution of the two calls through the full handler. -/
def runSerial (db : DB) (c1 c2 : VoteCall) : DB :=
  (votePOST (votePOST db (some c1.userId) (some c1.definitionId) c1.voteType).2
    (some c2.userId) (some c2.definitionId) c2.voteType).2

/-- C3 — the handler reads the existing vote *before* `db.transaction`, not
inside it, so the read-then-write sequence is not atomic with respect to
concurrent calls on the same target: for two concurrent `remove` calls by the
same actor on a target carrying one up vote, the read-read-tx-tx interleaving
lets both calls report success and drives the up counter to −1 over an empty
ledger — breaking counter–ledger agreement and matching neither serial order
(both serial orders end with the counter at 0). -/
theorem C3_read_outside_transaction_races :
    WFdb (⟨[⟨1, 1, 0⟩], [⟨0, 1, "alice", Dir.up⟩], 1⟩ : DB) ∧
    runReadReadTxTx ⟨[⟨1, 1, 0⟩], [⟨0, 1, "alice", Dir.up⟩], 1⟩
        ⟨"alice", 1, "remove"⟩ ⟨"alice", 1, "remove"⟩
      = ((VoteResponse.success, VoteResponse.success), ⟨[⟨1, -1, 0⟩], [], 1⟩) ∧
    runSerial ⟨[⟨1, 1, 0⟩], [⟨0, 1, "alice", Dir.up⟩], 1⟩
        ⟨"alice", 1, "remove"⟩ ⟨"alice", 1, "remove"⟩ = ⟨[⟨1, 0, 0⟩], [], 1⟩ ∧
    ¬ countersAgree ⟨[⟨1, -1, 0⟩], [], 1⟩ := by
  refine ⟨by decide, by decide, by decide, by decide⟩

/-! ### Part 2 — the seeding pipeline (`src/shared/db/seed.ts`) -/

/-- Character-wise model of JavaScript `toLowerCase` for the alphabets the
seed data uses: ASCII A–Z and the Greek block (plain and accented capitals);
other characters are unchanged.  (JavaScript's context-dependent final-sigma
rule lower-cases a capital sigma to σ or ς depending on position; both map to
"s" in the substitution table, so the character-wise model is adequate for
`transliterate`.) -/
def jsLower (c : Char) : Char :=
  let n := c.toNat
  if 65 ≤ n ∧ n ≤ 90 then Char.ofNat (n + 32)
  else if n = 0x386 then Char.ofNat 0x3AC
  else if 0x388 ≤ n ∧ n ≤ 0x38A then Char.ofNat (n + 37)
  else if n = 0x38C then Char.ofNat 0x3CC
  else if n = 0x38E ∨ n = 0x38F then Char.ofNat (n + 63)
  else if (0x391 ≤ n ∧ n ≤ 0x3A1) ∨ (0x3A3 ≤ n ∧ n ≤ 0x3AB) then Char.ofNat (n + 32)
  else c

/-- The seeder's fixed `greekToLatinMap` object, as an association list in
source order. -/
def greekToLatinPairs : List (Char × String) :=
  [('α', "a"), ('ά', "a"), ('β', "v"), ('γ', "g"), ('δ', "d"), ('ε', "e"),
   ('έ', "e"), ('ζ', "z"), ('η', "i"), ('ή', "i"), ('θ', "th"), ('ι', "i"),
   ('ί', "i"), ('ϊ', "i"), ('ΐ', "i"), ('κ', "k"), ('λ', "l"), ('μ', "m"),
   ('ν', "n"), ('ξ', "x"), ('ο', "o"), ('ό', "o"), ('π', "p"), ('ρ', "r"),
   ('σ', "s"), ('ς', "s"), ('τ', "t"), ('υ', "y"), ('ύ', "y"), ('ϋ', "y"),
   ('ΰ', "y"), ('φ', "f"), ('χ', "ch"), ('ψ', "ps"), ('ω', "o"), ('ώ', "o")]

/-- Property lookup `greekToLatinMap[char]`. -/
def greekToLatinMap (c : Char) : Option String :=
  greekToLatinPairs.lookup c

/-- `greekToLatinMap[char] || char`: the substitution, or the character itself
when it has no entry. -/
def translitChar (c : Char) : List Char :=
  match greekToLatinMap c with
  | some s => s.data
  | none => [c]

/-- The regex class `[a-z0-9]` of the final `.replace(/[^a-z0-9]/g, "")`. -/
def isLowerAlnum (c : Char) : Bool :=
  (97 ≤ c.toNat && c.toNat ≤ 122) || (48 ≤ c.toNat && c.toNat ≤ 57)

/-- `transliterate` of the seeder: lower-case the text, map every character
through the table, join, then remove every character outside `[a-z0-9]`. -/
def transliterate (s : String) : String :=
  String.mk (((s.data.map jsLower).flatMap translitChar).filter isLowerAlnum)

-- sanity checks against the source's intent
example : transliterate "γαμάτο" = "gamato" := by decide
example : transliterate "Μπρο" = "mpro" := by decide
example : transliterate "ψυχή!" = "psychi" := by decide

theorem jsLower_fixed_of_lowerAlnum (c : Char) (h : isLowerAlnum c = true) :
    jsLower c = c := by
  unfold isLowerAlnum at h
  rw [Bool.or_eq_true, Bool.and_eq_true, Bool.and_eq_true] at h
  simp only [decide_eq_true_eq] at h
  unfold jsLower
  rw [if_neg (by omega), if_neg (by omega), if_neg (by omega), if_neg (by omega),
    if_neg (by omega), if_neg (by omega)]

theorem lookup_eq_none_of_keys_ge (l : List (Char × String)) (c : Char)
    (hk : ∀ p ∈ l, 0x386 ≤ p.1.toNat) (hc : c.toNat < 0x386) :
    l.lookup c = none := by
  induction l with
  | nil => rfl
  | cons p t ih =>
    obtain ⟨k, b⟩ := p
    rw [List.lookup_cons]
    have hne : (c == k) = false := by
      rw [beq_eq_false_iff_ne]
      intro hEq
      have hk1 : 0x386 ≤ k.toNat := hk (k, b) (List.mem_cons_self _ _)
      rw [hEq] at hc
      omega
    rw [hne]
    exact ih (fun q hq => hk q (List.mem_cons_of_mem _ hq))

theorem greekToLatinMap_none_of_lowerAlnum (c : Char) (h : isLowerAlnum c = true) :
    greekToLatinMap c = none := by
  unfold isLowerAlnum at h
  rw [Bool.or_eq_true, Bool.and_eq_true, Bool.and_eq_true] at h
  simp only [decide_eq_true_eq] at h
  exact lookup_eq_none_of_keys_ge greekToLatinPairs c (by decide) (by omega)

theorem flatMap_translitChar_fixed (l : List Char) (h : ∀ c ∈ l, isLowerAlnum c = true) :
    l.flatMap translitChar = l := by
  induction l with
  | nil => rfl
  | cons a t ih =>
    rw [List.flatMap_cons]
    have ha : translitChar a = [a] := by
      unfold translitChar
      rw [greekToLatinMap_none_of_lowerAlnum a (h a (List.mem_cons_self _ _))]
    rw [ha, ih (fun c hc => h c (List.mem_cons_of_mem _ hc))]
    rfl

/-- C10 — `transliterate` outputs only the characters `a`–`z` and `0`–`9`, and
it is idempotent: transliterating its own output changes nothing. -/
theorem C10_transliterate_closed_idempotent (s : String) :
    ((transliterate s).data.all isLowerAlnum) = true ∧
    transliterate (transliterate s) = transliterate s := by
  have hall : ∀ c ∈ (transliterate s).data, isLowerAlnum c = true := by
    intro c hc
    exact (List.mem_filter.mp hc).2
  constructor
  · rw [List.all_eq_true]
    exact hall
  · show transliterate (transliterate s) = transliterate s
    unfold transliterate
    have hmap : (transliterate s).data.map jsLower = (transliterate s).data :=
      (List.map_congr_left (fun c hc => jsLower_fixed_of_lowerAlnum c (hall c hc))).trans
        (List.map_id' _)
    have hflat : (transliterate s).data.flatMap translitChar = (transliterate s).data :=
      flatMap_translitChar_fixed _ hall
    have hfilter : (transliterate s).data.filter isLowerAlnum = (transliterate s).data :=
      List.filter_eq_self.mpr hall
    show String.mk ((((transliterate s).data.map jsLower).flatMap translitChar).filter
      isLowerAlnum) = transliterate s
    rw [hmap, hflat, hfilter]

/-! ### Phase 1 — load and transliterate-dedupe -/

/-- One definition of a seed input record (`{ text, example? }`); the optional
example is `exampleText` here because `example` is reserved in Lean. -/
structure DefnJson where
  text : String
  exampleText : Option String
deriving DecidableEq, Repr

/-- One input file (`SlangTermJson`): term text, definitions, source URL. -/
structure SlangTermJson where
  term : String
  definitions : List DefnJson
  url : String
deriving DecidableEq, Repr

/-- The value stored in `termsByTransliteration` for one key. -/
structure MergedTerm where
  originalTerm : String
  sourceUrls : List String
  allDefinitions : List DefnJson
deriving DecidableEq, Repr

/-- Merging a duplicate record into the existing entry:
`existing.sourceUrls.push(data.url)`;
`existing.allDefinitions.push(...data.definitions)`. -/
def pushRecord (m : MergedTerm) (r : SlangTermJson) : MergedTerm :=
  { originalTerm := m.originalTerm,
    sourceUrls := m.sourceUrls ++ [r.url],
    allDefinitions := m.allDefinitions ++ r.definitions }

/-- The fresh entry created for a first-seen transliteration key. -/
def newMerged (r : SlangTermJson) : MergedTerm :=
  { originalTerm := r.term, sourceUrls := [r.url], allDefinitions := r.definitions }

/-- One iteration of the phase-1 loop over the input files. -/
def addRecord (acc : List (String × MergedTerm)) (r : SlangTermJson) :
    List (String × MergedTerm) :=
  match acc.lookup (transliterate r.term) with
  | some _ => acc.map (fun p =>
      if p.1 == transliterate r.term then (p.1, pushRecord p.2 r) else p)
  | none => acc ++ [(transliterate r.term, newMerged r)]

/-- Phase 1: the insertion-ordered `termsByTransliteration` map. -/
def termsByTransliteration (records : List SlangTermJson) :
    List (String × MergedTerm) :=
  records.foldl addRecord []

/-- A row of the `terms` table as phase 2 inserts it: display text, slug from
the running counter, `sourceUrls[0]` as the persisted URL. -/
structure TermRow where
  term : String
  slug : String
  sourceUrl : Option String
deriving DecidableEq, Repr

def insertTermRowsAux : Nat → List (String × MergedTerm) → List TermRow
  | _, [] => []
  | slugCounter, (_, m) :: rest =>
    { term := m.originalTerm, slug := toString slugCounter,
      sourceUrl := m.sourceUrls.head? } :: insertTermRowsAux (slugCounter + 1) rest

/-- Phase 2: one `terms` row per merged entry, in map order, with the slug
counter starting at 1. -/
def insertTermRows (records : List SlangTermJson) : List TermRow :=
  insertTermRowsAux 1 (termsByTransliteration records)

/-- The merge the claim predicts for key `k`: the first record whose term
transliterates to `k` gives the display text; URLs are collected in input
order; the definition lists are concatenated in input order. -/
def mergedSpec (records : List SlangTermJson) (k : String) : Option MergedTerm :=
  match records.filter (fun r => transliterate r.term == k) with
  | [] => none
  | r :: rest => some
      { originalTerm := r.term,
        sourceUrls := (r :: rest).map (fun q => q.url),
        allDefinitions := (r :: rest).flatMap (fun q => q.definitions) }

-- sanity check: two records with the same key merge into one entry
example :
    termsByTransliteration
      [⟨"μπρο", [⟨"αδερφέ", none⟩], "u1"⟩, ⟨"μπρό", [⟨"φίλε", none⟩], "u2"⟩]
    = [("mpro", ⟨"μπρο", ["u1", "u2"], [⟨"αδερφέ", none⟩, ⟨"φίλε", none⟩]⟩)] := by
  decide

theorem lookup_append_none {β : Type} (l1 l2 : List (String × β)) (k : String)
    (h : l1.lookup k = none) : (l1 ++ l2).lookup k = l2.lookup k := by
  induction l1 with
  | nil => rfl
  | cons p t ih =>
    obtain ⟨k', v⟩ := p
    rw [List.lookup_cons] at h
    rw [List.cons_append, List.lookup_cons]
    cases hk : (k == k') with
    | true => rw [hk] at h; cases h
    | false =>
      rw [hk] at h
      exact ih h

theorem lookup_append_some {β : Type} (l1 l2 : List (String × β)) (k : String) (m : β)
    (h : l1.lookup k = some m) : (l1 ++ l2).lookup k = some m := by
  induction l1 with
  | nil => cases h
  | cons p t ih =>
    obtain ⟨k', v⟩ := p
    rw [List.lookup_cons] at h
    rw [List.cons_append, List.lookup_cons]
    cases hk : (k == k') with
    | true => rw [hk] at h; exact h
    | false => rw [hk] at h; exact ih h

theorem lookup_update_self (acc : List (String × MergedTerm)) (k : String)
    (f : MergedTerm → MergedTerm) (m : MergedTerm) (h : acc.lookup k = some m) :
    (acc.map (fun p => if p.1 == k then (p.1, f p.2) else p)).lookup k = some (f m) := by
  induction acc with
  | nil => cases h
  | cons p t ih =>
    obtain ⟨k', v⟩ := p
    rw [List.lookup_cons] at h
    rw [List.map_cons]
    cases hk : (k == k') with
    | true =>
      rw [hk] at h
      have hvm : v = m := Option.some.inj h
      subst hvm
      have hk' : (k' == k) = true := by
        rw [beq_iff_eq] at hk ⊢
        exact hk.symm
      rw [if_pos hk']
      show ((k', f v) :: _).lookup k = some (f v)
      rw [List.lookup_cons, hk]
    | false =>
      rw [hk] at h
      have hk' : (k' == k) = false := by
        rw [beq_eq_false_iff_ne] at hk ⊢
        exact fun hEq => hk hEq.symm
      rw [if_neg (by rw [hk']; exact Bool.false_ne_true)]
      show ((k', v) :: _).lookup k = some (f m)
      rw [List.lookup_cons, hk]
      exact ih h

theorem lookup_update_ne (acc : List (String × MergedTerm)) (k k' : String)
    (f : MergedTerm → MergedTerm) (hne : k' ≠ k) :
    (acc.map (fun p => if p.1 == k' then (p.1, f p.2) else p)).lookup k
      = acc.lookup k := by
  induction acc with
  | nil => rfl
  | cons p t ih =>
    obtain ⟨kh, v⟩ := p
    rw [List.map_cons]
    by_cases hkh : (kh == k') = true
    · rw [if_pos hkh]
      show ((kh, f v) :: _).lookup k = ((kh, v) :: t).lookup k
      rw [List.lookup_cons, List.lookup_cons]
      cases hk : (k == kh) with
      | true =>
        rw [beq_iff_eq] at hk hkh
        exact absurd (hkh ▸ hk : k = k') (fun h => hne h.symm)
      | false => exact ih
    · rw [if_neg hkh]
      show ((kh, v) :: _).lookup k = ((kh, v) :: t).lookup k
      rw [List.lookup_cons, List.lookup_cons]
      cases hk : (k == kh) with
      | true => rfl
      | false => exact ih

theorem key_not_mem_of_lookup_none {β : Type} (l : List (String × β)) (k : String)
    (h : l.lookup k = none) : k ∉ l.map Prod.fst := by
  induction l with
  | nil => simp
  | cons p t ih =>
    obtain ⟨k', v⟩ := p
    rw [List.lookup_cons] at h
    cases hk : (k == k') with
    | true => rw [hk] at h; cases h
    | false =>
      rw [hk] at h
      rw [List.map_cons, List.mem_cons]
      rintro (hEq | hmem)
      · rw [beq_eq_false_iff_ne] at hk
        exact hk hEq
      · exact ih h hmem

/-- The merged entry for key `k` after folding `records` over a starting
value: the accumulator form of the claim's merge description. -/
def mergedAfter (records : List SlangTermJson) (k : String) (acc0 : Option MergedTerm) :
    Option MergedTerm :=
  match acc0 with
  | some m => some ((records.filter (fun r => transliterate r.term == k)).foldl pushRecord m)
  | none =>
    match records.filter (fun r => transliterate r.term == k) with
    | [] => none
    | r :: rest => some (rest.foldl pushRecord (newMerged r))

theorem mergedAfter_nil (k : String) (acc0 : Option MergedTerm) :
    mergedAfter [] k acc0 = acc0 := by
  cases acc0 with
  | some m => rfl
  | none => rfl

theorem mergedAfter_cons_match (r : SlangTermJson) (t : List SlangTermJson) (k : String)
    (acc0 : Option MergedTerm) (hkk : transliterate r.term = k) :
    mergedAfter (r :: t) k acc0 =
      mergedAfter t k (some (match acc0 with
        | some m => pushRecord m r
        | none => newMerged r)) := by
  have hpr : (transliterate r.term == k) = true := beq_iff_eq.mpr hkk
  cases acc0 with
  | some m =>
    unfold mergedAfter
    rw [List.filter_cons, if_pos hpr]
    rfl
  | none =>
    unfold mergedAfter
    rw [List.filter_cons, if_pos hpr]

theorem mergedAfter_cons_nomatch (r : SlangTermJson) (t : List SlangTermJson) (k : String)
    (acc0 : Option MergedTerm) (hkk : ¬ transliterate r.term = k) :
    mergedAfter (r :: t) k acc0 = mergedAfter t k acc0 := by
  have hpr : (transliterate r.term == k) = false := beq_eq_false_iff_ne.mpr hkk
  cases acc0 with
  | some m =>
    unfold mergedAfter
    rw [List.filter_cons, if_neg (by rw [hpr]; exact Bool.false_ne_true)]
  | none =>
    unfold mergedAfter
    rw [List.filter_cons, if_neg (by rw [hpr]; exact Bool.false_ne_true)]

theorem lookup_foldl_addRecord (records : List SlangTermJson) :
    ∀ (acc : List (String × MergedTerm)) (k : String),
      (records.foldl addRecord acc).lookup k = mergedAfter records k (acc.lookup k) := by
  induction records with
  | nil =>
    intro acc k
    rw [List.foldl_nil, mergedAfter_nil]
  | cons r t ih =>
    intro acc k
    rw [List.foldl_cons]
    show (t.foldl addRecord (addRecord acc r)).lookup k = _
    rw [ih (addRecord acc r) k]
    unfold addRecord
    cases hA : acc.lookup (transliterate r.term) with
    | some m0 =>
      by_cases hkk : transliterate r.term = k
      · subst hkk
        rw [lookup_update_self acc (transliterate r.term)
          (fun m => pushRecord m r) m0 hA]
        rw [hA, mergedAfter_cons_match r t (transliterate r.term) (some m0) rfl]
      · rw [lookup_update_ne acc k (transliterate r.term)
          (fun m => pushRecord m r) hkk]
        rw [mergedAfter_cons_nomatch r t k (acc.lookup k) hkk]
    | none =>
      by_cases hkk : transliterate r.term = k
      · subst hkk
        rw [lookup_append_none acc _ (transliterate r.term) hA]
        rw [List.lookup_cons_self]
        rw [hA, mergedAfter_cons_match r t (transliterate r.term) none rfl]
      · have hlk : (acc ++ [(transliterate r.term, newMerged r)]).lookup k
            = acc.lookup k := by
          cases hB : acc.lookup k with
          | some m => exact lookup_append_some acc _ k m hB
          | none =>
            rw [lookup_append_none acc _ k hB, List.lookup_cons]
            rw [show (k == transliterate r.term) = false from
              beq_eq_false_iff_ne.mpr (fun h => hkk h.symm)]
            rfl
        rw [hlk, mergedAfter_cons_nomatch r t k (acc.lookup k) hkk]

theorem foldl_pushRecord_eq (l : List SlangTermJson) :
    ∀ m : MergedTerm, l.foldl pushRecord m =
      { originalTerm := m.originalTerm,
        sourceUrls := m.sourceUrls ++ l.map (fun q => q.url),
        allDefinitions := m.allDefinitions ++ l.flatMap (fun q => q.definitions) } := by
  induction l with
  | nil =>
    intro m
    cases m
    simp
  | cons a t ih =>
    intro m
    rw [List.foldl_cons, ih (pushRecord m a)]
    unfold pushRecord
    simp [List.append_assoc]

theorem mergedAfter_none_eq_spec (records : List SlangTermJson) (k : String) :
    mergedAfter records k none = mergedSpec records k := by
  unfold mergedAfter mergedSpec
  cases hf : records.filter (fun r => transliterate r.term == k) with
  | nil => rfl
  | cons r rest =>
    show some (rest.foldl pushRecord (newMerged r))
      = some { originalTerm := r.term,
               sourceUrls := (r :: rest).map (fun q => q.url),
               allDefinitions := (r :: rest).flatMap (fun q => q.definitions) }
    rw [foldl_pushRecord_eq rest (newMerged r)]
    unfold newMerged
    simp

theorem keys_map_fst_eq (acc : List (String × MergedTerm))
    (g : (String × MergedTerm) → (String × MergedTerm))
    (hg : ∀ p, (g p).1 = p.1) :
    (acc.map g).map Prod.fst = acc.map Prod.fst := by
  rw [List.map_map]
  apply List.map_congr_left
  intro p _
  exact hg p

theorem keys_nodup_foldl (records : List SlangTermJson) :
    ∀ acc : List (String × MergedTerm), (acc.map Prod.fst).Nodup →
      ((records.foldl addRecord acc).map Prod.fst).Nodup := by
  induction records with
  | nil => exact fun acc h => h
  | cons r t ih =>
    intro acc h
    rw [List.foldl_cons]
    apply ih
    unfold addRecord
    cases hA : acc.lookup (transliterate r.term) with
    | some m0 =>
      show ((acc.map (fun p =>
        if p.1 == transliterate r.term then (p.1, pushRecord p.2 r) else p)).map
          Prod.fst).Nodup
      have heq := keys_map_fst_eq acc
        (fun p => if p.1 == transliterate r.term then (p.1, pushRecord p.2 r) else p)
        (fun p => by
          show (if (p.1 == transliterate r.term) = true
            then (p.1, pushRecord p.2 r) else p).1 = p.1
          by_cases h2 : (p.1 == transliterate r.term) = true
          · rw [if_pos h2]
          · rw [if_neg h2])
      rw [heq]
      exact h
    | none =>
      show ((acc ++ [(transliterate r.term, newMerged r)]).map Prod.fst).Nodup
      rw [List.map_append]
      apply List.pairwise_append.mpr
      refine ⟨h, List.pairwise_singleton _ _, ?_⟩
      intro a ha b hb
      rw [List.map_singleton, List.mem_singleton] at hb
      subst hb
      intro hEq
      apply key_not_mem_of_lookup_none acc _ hA
      have hEq2 : a = transliterate r.term := hEq
      exact hEq2 ▸ ha

theorem insertTermRowsAux_maps : ∀ (l : List (String × MergedTerm)) (n : Nat),
    (insertTermRowsAux n l).map (fun row => row.term)
        = l.map (fun p => p.2.originalTerm) ∧
    (insertTermRowsAux n l).map (fun row => row.sourceUrl)
        = l.map (fun p => p.2.sourceUrls.head?) := by
  intro l
  induction l with
  | nil => exact fun n => ⟨rfl, rfl⟩
  | cons p t ih =>
    intro n
    obtain ⟨k, m⟩ := p
    unfold insertTermRowsAux
    constructor
    · rw [List.map_cons, List.map_cons, (ih (n + 1)).1]
    · rw [List.map_cons, List.map_cons, (ih (n + 1)).2]

/-- C7 — phase 1 keys every record by `transliterate` of its term text and
merges records sharing a key: the transliteration map has pairwise-distinct
keys (so each key yields exactly one `terms` row), the entry of key `k` is
exactly the claim's merge of the records whose terms transliterate to `k`
(first-seen term text as display text, URLs in input order, definition lists
concatenated), and the inserted term rows carry, entry by entry, the
first-seen term text and the first retained URL. -/
theorem C7_transliterate_dedupe_merge (records : List SlangTermJson) (k : String) :
    ((termsByTransliteration records).map Prod.fst).Nodup ∧
    (termsByTransliteration records).lookup k = mergedSpec records k ∧
    (insertTermRows records).map (fun row => row.term)
      = (termsByTransliteration records).map (fun p => p.2.originalTerm) ∧
    (insertTermRows records).map (fun row => row.sourceUrl)
      = (termsByTransliteration records).map (fun p => p.2.sourceUrls.head?) := by
  refine ⟨keys_nodup_foldl records [] List.nodup_nil, ?_,
    (insertTermRowsAux_maps _ 1).1, (insertTermRowsAux_maps _ 1).2⟩
  unfold termsByTransliteration
  rw [lookup_foldl_addRecord records [] k]
  exact mergedAfter_none_eq_spec records k

/-! ### Phase 3 — cross-reference extraction -/

/-- The punctuation class of `extractWords`:
period, comma, semicolon, colon, bang, question mark, parentheses,
guillemets, double and single quote, en dash, em dash. -/
def isPunctChar (c : Char) : Bool :=
  c.toNat ∈ ([46, 44, 59, 58, 33, 63, 40, 41, 0xAB, 0xBB, 34, 39,
    0x2013, 0x2014] : List Nat)

/-- JavaScript `\s` restricted to the whitespace occurring in the seed data:
space, tab, line feed, carriage return, vertical tab, form feed. -/
def isWsChar (c : Char) : Bool :=
  c.toNat ∈ ([32, 9, 10, 13, 11, 12] : List Nat)

/-- `.split(/\s+/)` as the maximal non-whitespace runs.  (The leading empty
string JavaScript produces for leading whitespace has length 0 and is removed
by the length filter either way.) -/
def splitWs : List Char → List Char → List (List Char)
  | [], cur => if cur.isEmpty then [] else [cur.reverse]
  | c :: rest, cur =>
    if isWsChar c then
      if cur.isEmpty then splitWs rest [] else cur.reverse :: splitWs rest []
    else splitWs rest (c :: cur)

/-- `extractWords` of the seeder: lower-case the text, replace the punctuation
class by spaces, split on whitespace, and keep only words of length > 2. -/
def extractWords (text : String) : List String :=
  ((splitWs ((text.data.map jsLower).map
      (fun c => if isPunctChar c then ' ' else c)) []).map String.mk).filter
    (fun w => w.length > 2)

example : extractWords "Πολύ γαμάτο, σχέδιο! Να το" = ["πολύ", "γαμάτο", "σχέδιο"] := by
  decide

/-- The `matchedTermIds` set built for one definition: for each extracted
word, transliterate it and, when `insertedTermsMap` has the key, add the
matched term's id (first-occurrence order, no repeats — `Set` semantics). -/
def matchedTermIds (termKeys : List (String × Nat)) (words : List String) : List Nat :=
  words.foldl (fun acc w =>
    match termKeys.lookup (transliterate w) with
    | some tid => if acc.contains tid then acc else acc ++ [tid]
    | none => acc) []

/-- `[defData.text, defData.example || ""].join(" ")`. -/
def combinedText (storedText : String) (exampleText : Option String) : String :=
  storedText ++ " " ++ exampleText.getD ""

/-- The `(definitionId, referencedTermId)` rows pushed for one definition. -/
def refsForDefinition (termKeys : List (String × Nat)) (defId : Nat)
    (storedText : String) (exampleText : Option String) : List (Nat × Nat) :=
  (matchedTermIds termKeys (extractWords (combinedText storedText exampleText))).map
    (fun tid => (defId, tid))

/-- `insert(definitionReferences).values(...).onConflictDoNothing()` into an
initially empty table: keep rows in order, dropping any row whose
`(definition_id, referenced_term_id)` pair is already present. -/
def insertReferences (refs : List (Nat × Nat)) : List (Nat × Nat) :=
  refs.foldl (fun acc r => if acc.contains r then acc else acc ++ [r]) []

theorem mem_matchedTermIds_aux (termKeys : List (String × Nat)) (words : List String) :
    ∀ (acc : List Nat) (x : Nat),
      (x ∈ words.foldl (fun acc w =>
        match termKeys.lookup (transliterate w) with
        | some tid => if acc.contains tid then acc else acc ++ [tid]
        | none => acc) acc)
      ↔ (x ∈ acc ∨ ∃ w ∈ words, termKeys.lookup (transliterate w) = some x) := by
  induction words with
  | nil =>
    intro acc x
    rw [List.foldl_nil]
    simp
  | cons w t ih =>
    intro acc x
    rw [List.foldl_cons]
    cases hlk : termKeys.lookup (transliterate w) with
    | none =>
      rw [ih]
      constructor
      · rintro (hx | ⟨w', hw', hl⟩)
        · exact Or.inl hx
        · exact Or.inr ⟨w', List.mem_cons_of_mem _ hw', hl⟩
      · rintro (hx | ⟨w', hw', hl⟩)
        · exact Or.inl hx
        · rcases List.mem_cons.mp hw' with rfl | hw2
          · rw [hlk] at hl
            cases hl
          · exact Or.inr ⟨w', hw2, hl⟩
    | some tid =>
      show (x ∈ t.foldl _ (if acc.contains tid then acc else acc ++ [tid])) ↔ _
      by_cases hc : (acc.contains tid) = true
      · rw [if_pos hc, ih]
        constructor
        · rintro (hx | ⟨w', hw', hl⟩)
          · exact Or.inl hx
          · exact Or.inr ⟨w', List.mem_cons_of_mem _ hw', hl⟩
        · rintro (hx | ⟨w', hw', hl⟩)
          · exact Or.inl hx
          · rcases List.mem_cons.mp hw' with rfl | hw2
            · rw [hlk] at hl
              cases hl
              exact Or.inl (List.elem_iff.mp hc)
            · exact Or.inr ⟨w', hw2, hl⟩
      · rw [if_neg hc, ih]
        constructor
        · rintro (hx | ⟨w', hw', hl⟩)
          · rcases List.mem_append.mp hx with hx2 | hx2
            · exact Or.inl hx2
            · rw [List.mem_singleton] at hx2
              subst hx2
              exact Or.inr ⟨w, List.mem_cons_self _ _, hlk⟩
          · exact Or.inr ⟨w', List.mem_cons_of_mem _ hw', hl⟩
        · rintro (hx | ⟨w', hw', hl⟩)
          · exact Or.inl (List.mem_append.mpr (Or.inl hx))
          · rcases List.mem_cons.mp hw' with rfl | hw2
            · rw [hlk] at hl
              cases hl
              exact Or.inl (List.mem_append.mpr (Or.inr (List.mem_singleton.mpr rfl)))
            · exact Or.inr ⟨w', hw2, hl⟩

theorem mem_matchedTermIds (termKeys : List (String × Nat)) (words : List String)
    (x : Nat) :
    x ∈ matchedTermIds termKeys words ↔
      ∃ w ∈ words, termKeys.lookup (transliterate w) = some x := by
  rw [matchedTermIds, mem_matchedTermIds_aux]
  simp

theorem nodup_matchedTermIds_aux (termKeys : List (String × Nat)) (words : List String) :
    ∀ acc : List Nat, acc.Nodup →
      (words.foldl (fun acc w =>
        match termKeys.lookup (transliterate w) with
        | some tid => if acc.contains tid then acc else acc ++ [tid]
        | none => acc) acc).Nodup := by
  induction words with
  | nil => exact fun acc h => h
  | cons w t ih =>
    intro acc h
    rw [List.foldl_cons]
    cases hlk : termKeys.lookup (transliterate w) with
    | none => exact ih acc h
    | some tid =>
      show (t.foldl _ (if acc.contains tid then acc else acc ++ [tid])).Nodup
      by_cases hc : (acc.contains tid) = true
      · rw [if_pos hc]
        exact ih acc h
      · rw [if_neg hc]
        apply ih
        apply List.pairwise_append.mpr
        refine ⟨h, List.pairwise_singleton _ _, ?_⟩
        intro a ha b hb
        rw [List.mem_singleton] at hb
        subst hb
        intro hEq
        subst hEq
        exact hc (List.elem_iff.mpr ha)

theorem mem_insertReferences_aux (refs : List (Nat × Nat)) :
    ∀ (acc : List (Nat × Nat)) (x : Nat × Nat),
      (x ∈ refs.foldl (fun acc r => if acc.contains r then acc else acc ++ [r]) acc)
      ↔ (x ∈ acc ∨ x ∈ refs) := by
  induction refs with
  | nil =>
    intro acc x
    rw [List.foldl_nil]
    simp
  | cons r t ih =>
    intro acc x
    rw [List.foldl_cons]
    by_cases hc : (acc.contains r) = true
    · rw [if_pos hc, ih]
      constructor
      · rintro (hx | hx)
        · exact Or.inl hx
        · exact Or.inr (List.mem_cons_of_mem _ hx)
      · rintro (hx | hx)
        · exact Or.inl hx
        · rcases List.mem_cons.mp hx with rfl | hx2
          · exact Or.inl (List.elem_iff.mp hc)
          · exact Or.inr hx2
    · rw [if_neg hc, ih]
      constructor
      · rintro (hx | hx)
        · rcases List.mem_append.mp hx with hx2 | hx2
          · exact Or.inl hx2
          · rw [List.mem_singleton] at hx2
            subst hx2
            exact Or.inr (List.mem_cons_self _ _)
        · exact Or.inr (List.mem_cons_of_mem _ hx)
      · rintro (hx | hx)
        · exact Or.inl (List.mem_append.mpr (Or.inl hx))
        · rcases List.mem_cons.mp hx with rfl | hx2
          · exact Or.inl (List.mem_append.mpr (Or.inr (List.mem_singleton.mpr rfl)))
          · exact Or.inr hx2

theorem mem_insertReferences (refs : List (Nat × Nat)) (x : Nat × Nat) :
    x ∈ insertReferences refs ↔ x ∈ refs := by
  rw [insertReferences, mem_insertReferences_aux]
  simp

/-- C8 — for every definition, the cross-reference phase produces exactly one
`(definition, term)` row per distinct term whose transliteration key some
token of the combined body+example text matches: the referenced ids are
pairwise distinct, every row carries the definition's id, and a term id is
referenced precisely when some extracted token transliterates to its key.  In
particular, a definition containing the token "γαμάτο" where "γαμάτο" is an
ingested term yields exactly one row linking the two. -/
theorem C8_cross_reference_rows (termKeys : List (String × Nat)) (defId : Nat)
    (storedText : String) (exampleText : Option String) :
    ((refsForDefinition termKeys defId storedText exampleText).map Prod.snd).Nodup ∧
    ((refsForDefinition termKeys defId storedText exampleText).map Prod.fst).all
      (fun d => d == defId) = true ∧
    (∀ tid : Nat,
      ((defId, tid) ∈ refsForDefinition termKeys defId storedText exampleText) ↔
      ∃ w ∈ extractWords (combinedText storedText exampleText),
        termKeys.lookup (transliterate w) = some tid) ∧
    refsForDefinition [("gamato", 7)] 42 "Πολύ γαμάτο σχέδιο." none = [(42, 7)] := by
  refine ⟨?_, ?_, ?_, by decide⟩
  · unfold refsForDefinition
    rw [List.map_map]
    have hmap : (matchedTermIds termKeys
          (extractWords (combinedText storedText exampleText))).map
        (Prod.snd ∘ fun tid => (defId, tid))
        = matchedTermIds termKeys (extractWords (combinedText storedText exampleText)) := by
      exact (List.map_congr_left (fun a _ => rfl)).trans (List.map_id' _)
    rw [hmap]
    exact nodup_matchedTermIds_aux termKeys _ [] List.nodup_nil
  · rw [List.all_eq_true]
    intro x hx
    rw [List.mem_map] at hx
    obtain ⟨p, hp, rfl⟩ := hx
    unfold refsForDefinition at hp
    rw [List.mem_map] at hp
    obtain ⟨tid, _, rfl⟩ := hp
    exact beq_self_eq_true defId
  · intro tid
    unfold refsForDefinition
    rw [List.mem_map]
    constructor
    · rintro ⟨t', ht', heq⟩
      have : t' = tid := congrArg Prod.snd heq
      subst this
      exact (mem_matchedTermIds termKeys _ t').mp ht'
    · intro h
      exact ⟨tid, (mem_matchedTermIds termKeys _ tid).mpr h, rfl⟩

/-- C9 — self-references are not excluded: whenever a token of a definition's
combined text transliterates to a key held by `insertedTermsMap` — including
the key of the definition's *own* term — the pipeline inserts the
`(definition, term)` row; the unique-pair constraint (`onConflictDoNothing`)
only drops repeated identical pairs, and a self pair is itself inserted. -/
theorem C9_self_reference_inserted (termKeys : List (String × Nat)) (defId tid : Nat)
    (storedText : String) (exampleText : Option String) (k : String)
    (hterm : termKeys.lookup k = some tid)
    (htok : ∃ w ∈ extractWords (combinedText storedText exampleText),
      transliterate w = k) :
    (defId, tid) ∈ insertReferences
      (refsForDefinition termKeys defId storedText exampleText) := by
  obtain ⟨w, hw, hwk⟩ := htok
  rw [mem_insertReferences]
  unfold refsForDefinition
  rw [List.mem_map]
  refine ⟨tid, ?_, rfl⟩
  rw [mem_matchedTermIds]
  exact ⟨w, hw, by rw [hwk]; exact hterm⟩

/-- Witness for C9: the term "γαμάτο" (key "gamato", id 7) with one of its own
definitions containing the token "γαμάτο" — the self-reference row is
inserted. -/
theorem C9_self_reference_inserted_witness :
    (42, 7) ∈ insertReferences
      (refsForDefinition [("gamato", 7)] 42 "Το γαμάτο είναι τέλειο" none) :=
  C9_self_reference_inserted [("gamato", 7)] 42 7 "Το γαμάτο είναι τέλειο" none
    "gamato" rfl ⟨"γαμάτο", by decide, by decide⟩
